import Mathlib

/-!
# NetAgent: the graph directory and the dispatcher

A shallow embedding of `src/Agent/NetAgent/NetAgent.go`.

* A Go `map[string]V` is a partial function `String → Option V`
  (`none` = key absent; an absent inner map reads as Go's `nil` map).
* A Go `map[string]struct{}` that is ranged over is a duplicate-free key list
  (`StrSet`); the order of the list is not observable from Go, and every
  `range` loop visits the keys in an order chosen by a `RangeOrder`.
* A buffered channel `chan []Message` is the list of the batches it holds,
  oldest first; a non-blocking send succeeds when fewer than `chanCap`
  batches are queued.
* A `*AgentNode` is identified with the key under which the directory holds
  it: node objects are created by `AddNode` only, one per key.
* In `send`, `recv` and the node loop a `[]Message` is a list value. That is
  the code's behaviour as long as the slice handed to `send` shares no
  backing array with a queued batch, which holds for the callers in the
  repository (the node loop with the two reference policies, the send tool).
* `sendShared` is `send` on slices that share memory: a slice is a header
  (array, offset, length) into a memory of message arrays, a channel holds
  headers, and stamping writes to the array. `sendShared_refines` shows that
  it agrees with `send` when the caller's slice shares no array with a queued
  batch.
* A Go `string` is a `String`: a sequence of Unicode characters (Go strings
  that are not valid UTF-8 are left out). `strings.TrimSpace` and
  `strings.Contains` of the Go standard library are modelled from their
  documentation.
* A `RouteFunc` is a function of its arguments, without the context.
* `*agent.Agent` is a reference (`AgentRef`), `nil` is `none`.
* The lock, the context and the wait group have no sequential content and
  are left out.
-/

namespace GoAgent

/-! ## Data model -/

/-- The data fields of `tools.Tool`; NetAgent.go only copies tool-call lists
and never reads `Parameters` or `Handler`. -/
structure Tool where
  Name : String
  Description : String
  Kind : String
deriving DecidableEq, Repr

/-- The struct `Message`. -/
structure Message where
  Role : String
  Content : String
  Name : String
  Description : String
  ToolCallID : String
  ToolCalls : List Tool
  FromNodeID : String
deriving DecidableEq, Repr

/-- A reference to an `agent.Agent` object. -/
abbrev AgentRef := Nat

/-- The struct `AgentNode`; a channel is the list of queued batches. -/
structure AgentNode where
  ID : String
  agent : AgentRef
  InputChan : List (List Message)
  OutputChan : List (List Message)
deriving DecidableEq, Repr

/-- The buffer size given to `make(chan []Message, 10)` in `NewAgentNode`. -/
def chanCap : Nat := 10

/-- The constructor `NewAgentNode`. -/
def NewAgentNode (id : String) (a : AgentRef) : AgentNode :=
  { ID := id, agent := a, InputChan := [], OutputChan := [] }

/-- An error value built by `fmt.Errorf(format, args...)`. -/
structure Error where
  format : String
  args : List String
deriving DecidableEq, Repr

/-- The call `fmt.Errorf(format, args...)`. -/
def Errorf (format : String) (args : List String) : Error :=
  { format := format, args := args }

/-- A Go `map[string]V`. -/
abbrev GoMap (V : Type) := String → Option V

/-- The statement `m[k] = v`. -/
def GoMap.put {V : Type} (m : GoMap V) (k : String) (v : V) : GoMap V :=
  fun k' => if k' = k then some v else m k'

/-- The statement `delete(m, k)`. -/
def GoMap.del {V : Type} (m : GoMap V) (k : String) : GoMap V :=
  fun k' => if k' = k then none else m k'

/-- A Go `map[string]struct{}`: its keys, without duplicates. -/
structure StrSet where
  keys : List String
  nodup : keys.Nodup
deriving DecidableEq

/-- The value `make(map[string]struct{})`. -/
def StrSet.empty : StrSet := ⟨[], List.nodup_nil⟩

/-- The test `_, ok := s[x]`. -/
def StrSet.has (s : StrSet) (x : String) : Bool := decide (x ∈ s.keys)

/-- The statement `s[x] = struct{}{}`. -/
def StrSet.add (s : StrSet) (x : String) : StrSet :=
  if h : x ∈ s.keys then s
  else ⟨s.keys ++ [x], by
    rw [List.nodup_append]
    refine ⟨s.nodup, List.nodup_singleton x, ?_⟩
    intro a ha hb
    rw [List.mem_singleton] at hb
    exact h (hb ▸ ha)⟩

/-- The statement `delete(s, x)`. -/
def StrSet.del (s : StrSet) (x : String) : StrSet :=
  ⟨s.keys.filter (fun k => decide (k ≠ x)), s.nodup.filter _⟩

/-- The order in which the range loops of one call visit the keys of a map:
`visit i ks` is the order in which the `i`-th range-over-a-map loop in the
text of the called function (counted from 0) visits the keys `ks`. Go leaves
the order unspecified, it only promises that every key is visited once. -/
structure RangeOrder where
  visit : Nat → List String → List String
  perm : ∀ i ks, (visit i ks).Perm ks

/-- The order in which the keys are stored. -/
def RangeOrder.stored : RangeOrder := ⟨fun _ ks => ks, fun _ ks => List.Perm.refl ks⟩

/-- The reverse of the order in which the keys are stored. -/
def RangeOrder.reversed : RangeOrder := ⟨fun _ ks => ks.reverse, fun _ ks => List.reverse_perm ks⟩

/-- The keys visited by the `i`-th loop `for k := range m[id]`; ranging over
a nil map visits nothing. -/
def rangeKeys (ρ : RangeOrder) (i : Nat) (m : GoMap StrSet) (id : String) : List String :=
  match m id with
  | some s => ρ.visit i s.keys
  | none => []

/-- The result type of a `RouteFunc` (the context argument is left out). -/
abbrev RouteResult := List String × List Message × Bool

/-- The type `RouteFunc`. -/
abbrev RouteFunc := String → String → List Message → String → RouteResult

/-- The struct `NetAgent`, without its lock, context and wait group. -/
structure NetAgent where
  nodes : GoMap AgentNode
  inEdges : GoMap StrSet
  outEdges : GoMap StrSet
  router : Option RouteFunc
  started : Bool

/-- The constructor `NewNetAgent`. -/
def NewNetAgent : NetAgent :=
  { nodes := fun _ => none, inEdges := fun _ => none, outEdges := fun _ => none,
    router := none, started := false }

/-! ## Graph directory -/

/-- The result of `AddNode`: the node handle or the error, and the directory. -/
structure AddNodeResult where
  node : Option AgentNode
  err : Option Error
  net : NetAgent

/-- The method `AddNode`. Registering the send tool on the agent and starting
the node loop of a started network do not touch the directory. -/
def AddNode (n : NetAgent) (id : String) (a : Option AgentRef) : AddNodeResult :=
  if id = "" then ⟨none, some (Errorf "node id is required" []), n⟩
  else match a with
    | none => ⟨none, some (Errorf "agent is required" []), n⟩
    | some ag =>
      match n.nodes id with
      | some _ => ⟨none, some (Errorf "node %q already exists" [id]), n⟩
      | none =>
        let node := NewAgentNode id ag
        ⟨some node, none,
          { n with
            nodes := n.nodes.put id node
            inEdges := n.inEdges.put id StrSet.empty
            outEdges := n.outEdges.put id StrSet.empty }⟩

/-- The statement `delete(m[k], x)`: deleting from a nil map does nothing. -/
def delInner (m : GoMap StrSet) (k x : String) : GoMap StrSet :=
  match m k with
  | some s => m.put k (s.del x)
  | none => m

/-- The method `DeleteNode`. -/
def DeleteNode (n : NetAgent) (id : String) (ρ : RangeOrder) : NetAgent :=
  match n.nodes id with
  | none => n
  | some _ =>
    let out1 := (rangeKeys ρ 0 n.inEdges id).foldl (fun o src => delInner o src id) n.outEdges
    let in1 := (rangeKeys ρ 1 out1 id).foldl (fun i dst => delInner i dst id) n.inEdges
    { n with
      inEdges := in1.del id
      outEdges := out1.del id
      nodes := n.nodes.del id }

/-- The statement `m[k][x] = struct{}{}` after `if m[k] == nil { m[k] = make(...) }`. -/
def addInner (m : GoMap StrSet) (k x : String) : GoMap StrSet :=
  match m k with
  | some s => m.put k (s.add x)
  | none => m.put k (StrSet.empty.add x)

/-- The method `AddEdge`. -/
def AddEdge (n : NetAgent) (fromID toID : String) : Option Error × NetAgent :=
  if fromID = "" ∨ toID = "" then (some (Errorf "fromID and toID are required" []), n)
  else match n.nodes fromID with
    | none => (some (Errorf "from node %q not found" [fromID]), n)
    | some _ =>
      match n.nodes toID with
      | none => (some (Errorf "to node %q not found" [toID]), n)
      | some _ =>
        (none, { n with
          outEdges := addInner n.outEdges fromID toID
          inEdges := addInner n.inEdges toID fromID })

/-- The method `DeleteEdge`. -/
def DeleteEdge (n : NetAgent) (fromID toID : String) : NetAgent :=
  { n with
    outEdges := delInner n.outEdges fromID toID
    inEdges := delInner n.inEdges toID fromID }

/-- The test `_, ok := m[k][x]`; indexing a nil map finds nothing. -/
def innerHas (m : GoMap StrSet) (k x : String) : Bool :=
  match m k with
  | some s => s.has x
  | none => false

/-- The test `_, ok := n.outEdges[a][b]`: the edge `a → b` in the outgoing view. -/
def hasOut (n : NetAgent) (a b : String) : Bool := innerHas n.outEdges a b

/-- The test `_, ok := n.inEdges[b][a]`: the edge `a → b` in the incoming view. -/
def hasIn (n : NetAgent) (b a : String) : Bool := innerHas n.inEdges b a

/-- One call of a directory mutator, with its arguments. -/
inductive Op where
  | addNode (id : String) (a : Option AgentRef)
  | deleteNode (id : String) (ρ : RangeOrder)
  | addEdge (fromID toID : String)
  | deleteEdge (fromID toID : String)

/-- The directory after one call; results and errors are dropped. -/
def Op.apply (n : NetAgent) : Op → NetAgent
  | .addNode id a => (AddNode n id a).net
  | .deleteNode id ρ => DeleteNode n id ρ
  | .addEdge f t => (AddEdge n f t).2
  | .deleteEdge f t => DeleteEdge n f t

/-- The directory reached from `NewNetAgent()` by a sequence of calls. -/
def run (ops : List Op) : NetAgent := ops.foldl Op.apply NewNetAgent

/-! ## Mailbox and dispatch -/

/-- The loop `for _, id := range toIDs` of `resolveTargets`: the target set
collected so far, or the error that ends the call. -/
def collectTargets (n : NetAgent) (fromID : String) :
    List String → StrSet → StrSet × Option Error
  | [], acc => (acc, none)
  | id :: rest, acc =>
    if id = "" then collectTargets n fromID rest acc
    else if hasOut n fromID id then collectTargets n fromID rest (acc.add id)
    else (acc, some (Errorf "no edge from %q to %q" [fromID, id]))

/-- The target set built by `resolveTargets` before the emptiness test. -/
def targetSet (n : NetAgent) (fromID : String) (toIDs : List String) (ρ : RangeOrder) :
    StrSet × Option Error :=
  if toIDs.length = 0 then
    ((rangeKeys ρ 0 n.outEdges fromID).foldl StrSet.add StrSet.empty, none)
  else collectTargets n fromID toIDs StrSet.empty

/-- The method `resolveTargets`; a returned `*AgentNode` is given by its key. -/
def resolveTargets (n : NetAgent) (fromID : String) (toIDs : List String) (ρ : RangeOrder) :
    List String × Option Error :=
  match n.nodes fromID with
  | none => ([], some (Errorf "from node %q not found" [fromID]))
  | some _ =>
    match targetSet n fromID toIDs ρ with
    | (_, some e) => ([], some e)
    | (set, none) =>
      if set.keys.length = 0 then ([], some (Errorf "no target nodes available" []))
      else ((ρ.visit 1 set.keys).filter (fun id => (n.nodes id).isSome), none)

/-- The loop `for i := range messages { messages[i].FromNodeID = fromID }`. -/
def stamp (fromID : String) (messages : List Message) : List Message :=
  messages.map (fun m => { m with FromNodeID := fromID })

/-- The statement `node.InputChan <- batch` when the buffer has room. -/
def enqueue (node : AgentNode) (batch : List Message) : AgentNode :=
  { node with InputChan := node.InputChan ++ [batch] }

/-- The delivery loop of `send`, from the targets still to visit, the
directory and the count so far: the count, the error and the directory at
the end. Every target returned by `resolveTargets` is registered, so the
first branch is never taken. -/
def deliver (batch : List Message) : List String → NetAgent → Nat → Nat × Option Error × NetAgent
  | [], n, delivered => (delivered, none, n)
  | id :: rest, n, delivered =>
    match n.nodes id with
    | none => deliver batch rest n delivered
    | some node =>
      if node.InputChan.length < chanCap then
        deliver batch rest { n with nodes := n.nodes.put id (enqueue node batch) } (delivered + 1)
      else (delivered, some (Errorf "input channel full for node %q" [node.ID]), n)

/-- The result of `send`: the count and the error it returns, the directory
after the call, and the caller's message slice after the call. -/
structure SendResult where
  delivered : Nat
  err : Option Error
  net : NetAgent
  messages : List Message

/-- The method `send`. -/
def send (n : NetAgent) (fromID : String) (toIDs : List String) (messages : List Message)
    (ρ : RangeOrder) : SendResult :=
  match resolveTargets n fromID toIDs ρ with
  | (_, some e) => ⟨0, some e, n, messages⟩
  | (targets, none) =>
    let batch := stamp fromID messages
    let r := deliver batch targets n 0
    ⟨r.1, r.2.1, r.2.2, batch⟩

/-- The mailbox of the node registered under `id`, oldest batch first. -/
def mailbox (n : NetAgent) (id : String) : Option (List (List Message)) :=
  (n.nodes id).map (fun node => node.InputChan)

/-- A user message with the given content and provenance. -/
def userMsg (content sender : String) : Message :=
  { Role := "user", Content := content, Name := "", Description := "", ToolCallID := "",
    ToolCalls := [], FromNodeID := sender }

/-- The directory with the nodes A and B and the single edge A → B. -/
def netAB : NetAgent :=
  run [.addNode "A" (some 1), .addNode "B" (some 2), .addEdge "A" "B"]

/-- The directory `netAB` after ten calls `send("A", ["B"], [msg])`: the
mailbox of B holds ten batches. -/
def netABfull : NetAgent :=
  (List.range 10).foldl
    (fun n _ => (send n "A" ["B"] [userMsg "hi" ""] RangeOrder.stored).net) netAB

/-! ## Go standard library: `unicode.IsSpace`, `strings.TrimSpace`, `strings.Contains` -/

/-- Go's `unicode.IsSpace`: the characters with Unicode's White_Space
property, which are U+0009..U+000D, U+0020, U+0085, U+00A0, U+1680,
U+2000..U+200A, U+2028, U+2029, U+202F, U+205F and U+3000. -/
def isSpace (c : Char) : Bool :=
  let r := c.toNat
  (0x09 ≤ r && r ≤ 0x0D) || r == 0x20 || r == 0x85 || r == 0xA0 || r == 0x1680 ||
    (0x2000 ≤ r && r ≤ 0x200A) || r == 0x2028 || r == 0x2029 || r == 0x202F ||
    r == 0x205F || r == 0x3000

/-- Go's `strings.TrimSpace`: the string without its leading and trailing
white space, as defined by `unicode.IsSpace`. -/
def TrimSpace (s : String) : String :=
  String.mk ((s.data.dropWhile isSpace).reverse.dropWhile isSpace).reverse

/-- The test whether some suffix of the second list starts with the first. -/
def hasInfix (sub : List Char) : List Char → Bool
  | [] => sub.isEmpty
  | c :: l => sub.isPrefixOf (c :: l) || hasInfix sub l

/-- Go's `strings.Contains(s, substr)`: whether `substr` is within `s`. -/
def Contains (s substr : String) : Bool := hasInfix substr.data s.data

/-! ## Router protocol -/

/-- The method `SetRouter`. -/
def SetRouter (n : NetAgent) (router : Option RouteFunc) : NetAgent :=
  { n with router := router }

/-- The function `SmartRouter`. -/
def SmartRouter (selfID replyToID : String) (_input : List Message) (reply : String) :
    RouteResult :=
  let trimmedReply := TrimSpace reply
  if Contains reply "delivered to" ∨ trimmedReply = "" then ([], [], true)
  else if replyToID ≠ "" ∧ replyToID ≠ selfID then
    let outMsg : Message :=
      { Role := "user", Content := reply, Name := "", Description := "", ToolCallID := "",
        ToolCalls := [], FromNodeID := selfID }
    ([replyToID], [outMsg], false)
  else ([], [], false)

/-- The function `defaultRoute`. -/
def defaultRoute (selfID _replyToID : String) (_input : List Message) (reply : String) :
    RouteResult :=
  if TrimSpace reply = "" then ([], [], true)
  else
    let outMsg : Message :=
      { Role := "user", Content := reply, Name := "", Description := "", ToolCallID := "",
        ToolCalls := [], FromNodeID := selfID }
    ([], [outMsg], false)

/-- The method `route`. -/
def route (n : NetAgent) (selfID replyToID : String) (input : List Message) (reply : String)
    (ρ : RangeOrder) : RouteResult :=
  let router : RouteFunc :=
    match n.router with
    | none => defaultRoute
    | some r => r
  match router selfID replyToID input reply with
  | (nextIDs, outMessages, stop) =>
    if stop = true ∨ nextIDs.length > 0 then (nextIDs, outMessages, stop)
    else
      let nextIDs := nextIDs ++ rangeKeys ρ 0 n.outEdges selfID
      if nextIDs.length = 0 then ([], outMessages, true)
      else (nextIDs, outMessages, false)

/-- The loop of `latestContent` from index `i - 1` down to 0. -/
def latestContentFrom (msgs : List Message) : Nat → String
  | 0 => ""
  | i + 1 =>
    match msgs.get? i with
    | none => latestContentFrom msgs i
    | some m => if TrimSpace m.Content ≠ "" then m.Content else latestContentFrom msgs i

/-- The function `latestContent`. -/
def latestContent (msgs : List Message) : String := latestContentFrom msgs msgs.length

/-! ## The pull path, the send action and the node loop -/

/-- The result of `recv`: the messages and the error it returns, and the
directory after the call. -/
structure RecvResult where
  msgs : List Message
  err : Option Error
  net : NetAgent

/-- The loop `for len(results) < max` of `recv`, from the batches still
queued and the results so far: the results returned and the batches left in
the queue. With an empty queue the `default` case returns the results. -/
def drain (max : Int) : List (List Message) → List Message → List Message × List (List Message)
  | [], results => (results, [])
  | next :: rest, results =>
    if (results.length : Int) < max then drain max rest (results ++ next)
    else (results, next :: rest)

/-- The largest capacity that `make([]Message, 0, max)` accepts on a 64-bit
platform: an allocation holds at most 2^48 bytes and a `Message` (six string
headers of 16 bytes and one slice header of 24 bytes) takes 120 bytes. -/
def maxMessageCap : Int := 2345624805922

/-- The method `recv`. Time is not modelled: no batch arrives while the call
waits, so with an empty mailbox both `select` statements return nothing. The
result is `none` when `make([]Message, 0, max)` panics: on a negative `max`
and on a `max` above `maxMessageCap`. -/
def recv (n : NetAgent) (nodeID : String) (max : Int) (_timeout : Int) : Option RecvResult :=
  match n.nodes nodeID with
  | none => some ⟨[], some (Errorf "node %q not found" [nodeID]), n⟩
  | some node =>
    match node.InputChan with
    | [] => some ⟨[], none, n⟩
    | first :: queue =>
      if max < 0 ∨ maxMessageCap < max then none
      else
        let r := drain max queue ([] ++ first)
        some ⟨r.1, none, { n with nodes := n.nodes.put nodeID { node with InputChan := r.2 } }⟩

/-- The arguments of the send action after `json.Unmarshal`. -/
structure SendInput where
  ToID : String
  ToIDs : List String
  Messages : List Message
  Content : String

/-- The targets of the send action: `to_ids`, followed by `to_id` when it is
not empty. -/
def actionTargets (input : SendInput) : List String :=
  if input.ToID ≠ "" then input.ToIDs ++ [input.ToID] else input.ToIDs

/-- The messages of the send action: `messages`, or the content wrapped into
one user message when there is no message and the content is not empty. -/
def actionMessages (input : SendInput) : List Message :=
  if input.Messages.length = 0 ∧ input.Content ≠ "" then
    [{ Role := "user", Content := input.Content, Name := "", Description := "",
       ToolCallID := "", ToolCalls := [], FromNodeID := "" }]
  else input.Messages

/-- The handler of the send action registered by `attachCommTools`, after
its arguments are parsed: the text and the error it returns, and the
directory after the call. -/
def sendAction (n : NetAgent) (nodeID : String) (input : SendInput) (ρ : RangeOrder) :
    String × Option Error × NetAgent :=
  let targets := actionTargets input
  let msgs := actionMessages input
  if msgs.length = 0 then ("", some (Errorf "messages or content is required" []), n)
  else
    let r := send n nodeID targets msgs ρ
    match r.err with
    | some e => ("", some e, r.net)
    | none => ("delivered to " ++ toString r.delivered ++ " node(s)", none, r.net)

/-- The messages that `nodeLoop` hands to `send` for the reply and the
messages returned by `route`. -/
def loopOutMessages (nodeID reply : String) (outMessages : List Message) : List Message :=
  if outMessages.length = 0 then
    [{ Role := "user", Content := reply, Name := "", Description := "",
       ToolCallID := "", ToolCalls := [], FromNodeID := nodeID }]
  else outMessages.map (fun m => if m.FromNodeID = "" then { m with FromNodeID := nodeID } else m)

/-- The directory with the nodes A, B and C and the edges A → B and A → C,
after ten calls `send("A", ["C"], [msg])`: the mailbox of C holds ten batches
and the mailbox of B is empty. -/
def netABCfull : NetAgent :=
  (List.range 10).foldl
    (fun n _ => (send n "A" ["C"] [userMsg "old" ""] RangeOrder.stored).net)
    (run [.addNode "A" (some 1), .addNode "B" (some 2), .addNode "C" (some 3),
      .addEdge "A" "B", .addEdge "A" "C"])

/-- The directory `netAB` after `send("A", ["B"], [m1, m2])` and
`send("A", ["B"], [m3])`: the mailbox of B holds a batch of two messages and
a batch of one message. -/
def netABtwo : NetAgent :=
  (send (send netAB "A" ["B"] [userMsg "one" "", userMsg "two" ""] RangeOrder.stored).net
    "A" ["B"] [userMsg "three" ""] RangeOrder.stored).net

/-- The network of `TestCommunication`: the nodes A, B and C, the six edges
between two of them, and the Smart policy. -/
def netTest : NetAgent :=
  SetRouter (run [.addNode "A" (some 1), .addNode "B" (some 2), .addNode "C" (some 3),
    .addEdge "A" "B", .addEdge "B" "A", .addEdge "B" "C", .addEdge "C" "B",
    .addEdge "A" "C", .addEdge "C" "A"]) (some SmartRouter)

/-! ## `send` on slices that share memory -/

/-- A slice header `[]Message`: its backing array, and the offset and the
length of the slice within the array. -/
structure Slice where
  arr : Nat
  off : Nat
  len : Nat
deriving DecidableEq, Repr

/-- The memory of message arrays: the content of every backing array. -/
abbrev Heap := Nat → List Message

/-- The messages of a slice: `len` elements of its array from `off` on. -/
def Heap.read (m : Heap) (s : Slice) : List Message :=
  ((m s.arr).drop s.off).take s.len

/-- The loop `for i := range messages { messages[i].FromNodeID = fromID }` on
the memory: it writes to the elements of the backing array that the slice
covers. -/
def Heap.stamp (m : Heap) (s : Slice) (fromID : String) : Heap :=
  fun a =>
    if a = s.arr then
      (m a).take s.off ++ GoAgent.stamp fromID (((m a).drop s.off).take s.len) ++
        (m a).drop (s.off + s.len)
    else m a

/-- The struct `AgentNode` with channels that hold slice headers. -/
structure RefNode where
  ID : String
  agent : AgentRef
  InputChan : List Slice
  OutputChan : List Slice
deriving DecidableEq, Repr

/-- The struct `NetAgent` with channels that hold slice headers, and the
memory of message arrays. -/
structure HeapNet where
  nodes : GoMap RefNode
  inEdges : GoMap StrSet
  outEdges : GoMap StrSet
  router : Option RouteFunc
  started : Bool
  heap : Heap

/-- The node with the messages that its queued slices read in the memory. -/
def RefNode.view (m : Heap) (node : RefNode) : AgentNode :=
  { ID := node.ID, agent := node.agent, InputChan := node.InputChan.map m.read,
    OutputChan := node.OutputChan.map m.read }

/-- The directory with the messages that the queued slices read in the memory. -/
def HeapNet.view (h : HeapNet) : NetAgent :=
  { nodes := fun id => (h.nodes id).map (RefNode.view h.heap), inEdges := h.inEdges,
    outEdges := h.outEdges, router := h.router, started := h.started }

/-- The statement `node.InputChan <- messages` when the buffer has room: the
channel queues the header of the slice. -/
def enqueueShared (node : RefNode) (batch : Slice) : RefNode :=
  { node with InputChan := node.InputChan ++ [batch] }

/-- The delivery loop of `send` on channels of slice headers: the statement
`node.InputChan <- messages` queues the header of the caller's slice. Every
target returned by `resolveTargets` is registered, so the first branch is
never taken. -/
def deliverShared (batch : Slice) :
    List String → HeapNet → Nat → Nat × Option Error × HeapNet
  | [], h, delivered => (delivered, none, h)
  | id :: rest, h, delivered =>
    match h.nodes id with
    | none => deliverShared batch rest h delivered
    | some node =>
      if node.InputChan.length < chanCap then
        deliverShared batch rest { h with nodes := h.nodes.put id (enqueueShared node batch) }
          (delivered + 1)
      else (delivered, some (Errorf "input channel full for node %q" [node.ID]), h)

/-- The result of `send` on slices that share memory: the count and the
error it returns, and the directory and the memory after the call. -/
structure SendSharedResult where
  delivered : Nat
  err : Option Error
  net : HeapNet

/-- The method `send` on slices that share memory: `resolveTargets` reads the
registered ids and the edges only; the stamping loop writes to the array of
the caller's slice; the delivery loop queues the header of that slice. -/
def sendShared (h : HeapNet) (fromID : String) (toIDs : List String) (messages : Slice)
    (ρ : RangeOrder) : SendSharedResult :=
  match resolveTargets h.view fromID toIDs ρ with
  | (_, some e) => ⟨0, some e, h⟩
  | (targets, none) =>
    let h1 : HeapNet := { h with heap := h.heap.stamp messages fromID }
    let r := deliverShared messages targets h1 0
    ⟨r.1, r.2.1, r.2.2⟩

/-- The directory `n` with empty channels, over the memory `m`. -/
def HeapNet.ofNet (n : NetAgent) (m : Heap) : HeapNet :=
  { nodes := fun id => (n.nodes id).map (fun node => ⟨node.ID, node.agent, [], []⟩),
    inEdges := n.inEdges, outEdges := n.outEdges, router := n.router, started := n.started,
    heap := m }

/-- A memory with the one array `[msg]` at address 0, the message without
provenance. -/
def heapHi : Heap := fun a => if a = 0 then [userMsg "hi" ""] else []

/-- The slice that covers the array at address 0. -/
def sliceHi : Slice := ⟨0, 0, 1⟩

/-- The network of `TestCommunication` over the memory `heapHi`, after
`send("A", ["B"], s)` for the slice `s = sliceHi`: the mailbox of B holds `s`. -/
def sharedAfterA : HeapNet :=
  (sendShared (HeapNet.ofNet netTest heapHi) "A" ["B"] sliceHi RangeOrder.stored).net

/-- The network of `TestCommunication` over the memory `heapHi`, after ten
calls `send("A", ["B"], s)` for the slice `s = sliceHi`: the mailbox of B
holds ten times `s`. -/
def sharedBfull : HeapNet :=
  (List.range 10).foldl
    (fun h _ => (sendShared h "A" ["B"] sliceHi RangeOrder.stored).net)
    (HeapNet.ofNet netTest heapHi)

/-- The adjacency invariants of the directory: the two adjacency views hold
the same edges, and every key of an adjacency map is a registered node. -/
structure AdjInv (n : NetAgent) : Prop where
  sym : ∀ a b, hasOut n a b = true ↔ hasIn n b a = true
  outKey : ∀ k, n.outEdges k ≠ none → n.nodes k ≠ none
  inKey : ∀ k, n.inEdges k ≠ none → n.nodes k ≠ none

/-! ## Lemmas on maps and sets -/

@[simp] theorem GoMap.put_same {V : Type} (m : GoMap V) (k : String) (v : V) :
    m.put k v k = some v := by
  simp [GoMap.put]

@[simp] theorem GoMap.put_other {V : Type} (m : GoMap V) (k k' : String) (v : V) (h : k' ≠ k) :
    m.put k v k' = m k' := by
  simp [GoMap.put, h]

@[simp] theorem GoMap.del_same {V : Type} (m : GoMap V) (k : String) : m.del k k = none := by
  simp [GoMap.del]

@[simp] theorem GoMap.del_other {V : Type} (m : GoMap V) (k k' : String) (h : k' ≠ k) :
    m.del k k' = m k' := by
  simp [GoMap.del, h]

theorem GoMap.put_self {V : Type} (m : GoMap V) (k : String) (v : V) (h : m k = some v) :
    m.put k v = m := by
  funext k'
  by_cases hk : k' = k
  · subst hk; simp [h]
  · simp [hk]

theorem GoMap.del_absent {V : Type} (m : GoMap V) (k : String) (h : m k = none) :
    m.del k = m := by
  funext k'
  by_cases hk : k' = k
  · subst hk; simp [h]
  · simp [hk]

@[simp] theorem StrSet.has_empty (x : String) : StrSet.empty.has x = false := by
  simp [StrSet.has, StrSet.empty]

theorem StrSet.has_iff (s : StrSet) (x : String) : s.has x = true ↔ x ∈ s.keys := by
  simp [StrSet.has]

theorem StrSet.mem_add (s : StrSet) (x y : String) :
    y ∈ (s.add x).keys ↔ y ∈ s.keys ∨ y = x := by
  unfold StrSet.add
  split
  · constructor
    · intro h; exact Or.inl h
    · rintro (h | h)
      · exact h
      · subst h; assumption
  · simp

theorem StrSet.mem_del (s : StrSet) (x y : String) :
    y ∈ (s.del x).keys ↔ y ∈ s.keys ∧ y ≠ x := by
  simp [StrSet.del]

theorem StrSet.add_of_mem (s : StrSet) (x : String) (h : x ∈ s.keys) : s.add x = s := by
  simp [StrSet.add, h]

theorem StrSet.del_of_not_mem (s : StrSet) (x : String) (h : x ∉ s.keys) : s.del x = s := by
  cases s with
  | mk keys nd =>
    simp only [StrSet.del, StrSet.mk.injEq]
    rw [List.filter_eq_self]
    intro a ha
    simp only [decide_eq_true_eq]
    rintro rfl
    exact h ha

theorem innerHas_iff (m : GoMap StrSet) (k x : String) :
    innerHas m k x = true ↔ ∃ s, m k = some s ∧ x ∈ s.keys := by
  unfold innerHas
  cases h : m k with
  | none => simp
  | some s => simp [StrSet.has_iff]

theorem innerHas_isSome (m : GoMap StrSet) (k x : String) (h : innerHas m k x = true) :
    m k ≠ none := by
  obtain ⟨s, hs, _⟩ := (innerHas_iff m k x).1 h
  simp [hs]

theorem innerHas_put_empty (m : GoMap StrSet) (k k' x : String) :
    innerHas (m.put k StrSet.empty) k' x = true ↔ k' ≠ k ∧ innerHas m k' x = true := by
  by_cases hk : k' = k
  · subst hk; simp [innerHas]
  · simp [innerHas, hk]

theorem innerHas_del (m : GoMap StrSet) (k k' x : String) :
    innerHas (m.del k) k' x = true ↔ k' ≠ k ∧ innerHas m k' x = true := by
  by_cases hk : k' = k
  · subst hk; simp [innerHas]
  · simp [innerHas, hk]

theorem innerHas_delInner (m : GoMap StrSet) (k x k' x' : String) :
    innerHas (delInner m k x) k' x' = true ↔
      innerHas m k' x' = true ∧ ¬ (k' = k ∧ x' = x) := by
  unfold delInner
  cases h : m k with
  | none =>
    simp only [iff_self_and]
    intro h1 h2
    rw [h2.1] at h1
    simp [innerHas, h] at h1
  | some s =>
    by_cases hk : k' = k
    · subst hk
      simp [innerHas, h, StrSet.has_iff, StrSet.mem_del]
    · simp [innerHas, hk]

theorem innerHas_addInner (m : GoMap StrSet) (k x k' x' : String) :
    innerHas (addInner m k x) k' x' = true ↔
      innerHas m k' x' = true ∨ (k' = k ∧ x' = x) := by
  unfold addInner
  cases h : m k with
  | none =>
    by_cases hk : k' = k
    · subst hk
      simp [innerHas, h, StrSet.has_iff, StrSet.mem_add, StrSet.empty]
    · simp [innerHas, hk]
  | some s =>
    by_cases hk : k' = k
    · subst hk
      simp [innerHas, h, StrSet.has_iff, StrSet.mem_add]
    · simp [innerHas, hk]

theorem delInner_none_iff (m : GoMap StrSet) (k x k' : String) :
    delInner m k x k' = none ↔ m k' = none := by
  unfold delInner
  cases h : m k with
  | none => simp
  | some s =>
    by_cases hk : k' = k
    · subst hk; simp [h]
    · simp [hk]

theorem addInner_none_iff (m : GoMap StrSet) (k x k' : String) :
    addInner m k x k' = none ↔ m k' = none ∧ k' ≠ k := by
  unfold addInner
  cases h : m k with
  | none =>
    by_cases hk : k' = k
    · subst hk; simp
    · simp [hk]
  | some s =>
    by_cases hk : k' = k
    · subst hk; simp
    · simp [hk]

theorem delInner_other (m : GoMap StrSet) (k x k' : String) (h : k' ≠ k) :
    delInner m k x k' = m k' := by
  unfold delInner
  cases m k with
  | none => rfl
  | some s => simp [h]

/-- The map after a loop `for k := range ks { delete(m[k], x) }`. -/
theorem innerHas_foldl_delInner (ks : List String) (x : String) (m : GoMap StrSet)
    (k' x' : String) :
    innerHas (ks.foldl (fun o k => delInner o k x) m) k' x' = true ↔
      innerHas m k' x' = true ∧ ¬ (k' ∈ ks ∧ x' = x) := by
  induction ks generalizing m with
  | nil => simp
  | cons k ks ih =>
    rw [List.foldl_cons, ih, innerHas_delInner]
    simp only [List.mem_cons]
    tauto

theorem foldl_delInner_none_iff (ks : List String) (x : String) (m : GoMap StrSet)
    (k' : String) :
    (ks.foldl (fun o k => delInner o k x) m) k' = none ↔ m k' = none := by
  induction ks generalizing m with
  | nil => simp
  | cons k ks ih => rw [List.foldl_cons, ih, delInner_none_iff]

theorem mem_rangeKeys (ρ : RangeOrder) (i : Nat) (m : GoMap StrSet) (id x : String) :
    x ∈ rangeKeys ρ i m id ↔ innerHas m id x = true := by
  unfold rangeKeys innerHas
  cases m id with
  | none => simp
  | some s => simp [(ρ.perm i s.keys).mem_iff, StrSet.has_iff]

theorem nodup_rangeKeys (ρ : RangeOrder) (i : Nat) (m : GoMap StrSet) (id : String) :
    (rangeKeys ρ i m id).Nodup := by
  unfold rangeKeys
  cases m id with
  | none => simp
  | some s => exact (ρ.perm i s.keys).nodup_iff.2 s.nodup

/-! ## The edges after each directory call -/

theorem AddNode_net_of_err (n : NetAgent) (id : String) (a : Option AgentRef)
    (h : (AddNode n id a).err ≠ none) : (AddNode n id a).net = n := by
  unfold AddNode at h ⊢
  split
  · rfl
  · split
    · rfl
    · split
      · rfl
      · rename_i h1 _ _ _ h2
        simp [h1, h2] at h

theorem AddNode_cases (n : NetAgent) (id : String) (a : Option AgentRef) :
    (AddNode n id a).net = n ∨
    (n.nodes id = none ∧ ∃ ag, a = some ag ∧ (AddNode n id a).net =
      { n with
        nodes := n.nodes.put id (NewAgentNode id ag)
        inEdges := n.inEdges.put id StrSet.empty
        outEdges := n.outEdges.put id StrSet.empty }) := by
  unfold AddNode
  split
  · exact Or.inl rfl
  · split
    · exact Or.inl rfl
    · split
      · exact Or.inl rfl
      · rename_i ag _ h2
        exact Or.inr ⟨h2, ag, rfl, rfl⟩

theorem AddEdge_cases (n : NetAgent) (f t : String) :
    (AddEdge n f t).2 = n ∨
    (n.nodes f ≠ none ∧ n.nodes t ≠ none ∧ (AddEdge n f t).2 =
      { n with
        outEdges := addInner n.outEdges f t
        inEdges := addInner n.inEdges t f }) := by
  unfold AddEdge
  split
  · exact Or.inl rfl
  · split
    · exact Or.inl rfl
    · split
      · exact Or.inl rfl
      · rename_i h1 _ _ h2
        exact Or.inr ⟨by simp [h1], by simp [h2], rfl⟩

theorem hasOut_DeleteEdge (n : NetAgent) (f t a b : String) :
    hasOut (DeleteEdge n f t) a b = true ↔ hasOut n a b = true ∧ ¬ (a = f ∧ b = t) := by
  simp only [hasOut, DeleteEdge, innerHas_delInner]

theorem hasIn_DeleteEdge (n : NetAgent) (f t a b : String) :
    hasIn (DeleteEdge n f t) b a = true ↔ hasIn n b a = true ∧ ¬ (a = f ∧ b = t) := by
  simp only [hasIn, DeleteEdge, innerHas_delInner]
  tauto

theorem DeleteNode_absent (n : NetAgent) (id : String) (ρ : RangeOrder)
    (h : n.nodes id = none) : DeleteNode n id ρ = n := by
  simp [DeleteNode, h]

theorem nodes_DeleteNode (n : NetAgent) (id : String) (ρ : RangeOrder) :
    (DeleteNode n id ρ).nodes = n.nodes.del id := by
  unfold DeleteNode
  cases h : n.nodes id with
  | none => simp only []; rw [GoMap.del_absent _ _ h]
  | some nd => rfl

theorem hasOut_DeleteNode (n : NetAgent) (id : String) (ρ : RangeOrder) (a b : String)
    (h : n.nodes id ≠ none) :
    hasOut (DeleteNode n id ρ) a b = true ↔
      a ≠ id ∧ hasOut n a b = true ∧ ¬ (hasIn n id a = true ∧ b = id) := by
  unfold DeleteNode
  cases h1 : n.nodes id with
  | none => exact absurd h1 h
  | some nd =>
    simp only [hasOut, hasIn, innerHas_del, innerHas_foldl_delInner, mem_rangeKeys]

theorem hasIn_DeleteNode (n : NetAgent) (id : String) (ρ : RangeOrder) (a b : String)
    (h : n.nodes id ≠ none) :
    hasIn (DeleteNode n id ρ) b a = true ↔
      b ≠ id ∧ hasIn n b a = true ∧
        ¬ ((hasOut n id b = true ∧ ¬ (hasIn n id id = true ∧ b = id)) ∧ a = id) := by
  unfold DeleteNode
  cases h1 : n.nodes id with
  | none => exact absurd h1 h
  | some nd =>
    simp only [hasOut, hasIn, innerHas_del, innerHas_foldl_delInner, mem_rangeKeys]

theorem outEdges_DeleteNode_none (n : NetAgent) (id : String) (ρ : RangeOrder) (k : String)
    (h : n.nodes id ≠ none) :
    (DeleteNode n id ρ).outEdges k = none ↔ k = id ∨ n.outEdges k = none := by
  unfold DeleteNode
  cases h1 : n.nodes id with
  | none => exact absurd h1 h
  | some nd =>
    by_cases hk : k = id
    · subst hk; simp
    · simp [hk, foldl_delInner_none_iff]

theorem inEdges_DeleteNode_none (n : NetAgent) (id : String) (ρ : RangeOrder) (k : String)
    (h : n.nodes id ≠ none) :
    (DeleteNode n id ρ).inEdges k = none ↔ k = id ∨ n.inEdges k = none := by
  unfold DeleteNode
  cases h1 : n.nodes id with
  | none => exact absurd h1 h
  | some nd =>
    by_cases hk : k = id
    · subst hk; simp
    · simp [hk, foldl_delInner_none_iff]

/-! ## The adjacency invariants are kept by every directory call -/

theorem AdjInv.member_out {n : NetAgent} (h : AdjInv n) {a b : String}
    (hab : hasOut n a b = true) : n.nodes a ≠ none ∧ n.nodes b ≠ none :=
  ⟨h.outKey a (innerHas_isSome _ _ _ hab), h.inKey b (innerHas_isSome _ _ _ ((h.sym a b).1 hab))⟩

theorem AdjInv.member_in {n : NetAgent} (h : AdjInv n) {a b : String}
    (hab : hasIn n b a = true) : n.nodes a ≠ none ∧ n.nodes b ≠ none :=
  h.member_out ((h.sym a b).2 hab)

theorem AdjInv_NewNetAgent : AdjInv NewNetAgent := by
  constructor
  · intro a b; simp [hasOut, hasIn, innerHas, NewNetAgent]
  · intro k hk; simp [NewNetAgent] at hk
  · intro k hk; simp [NewNetAgent] at hk

theorem AdjInv_AddNode {n : NetAgent} (h : AdjInv n) (id : String) (a : Option AgentRef) :
    AdjInv (AddNode n id a).net := by
  rcases AddNode_cases n id a with h1 | ⟨hid, ag, _, h1⟩
  · rw [h1]; exact h
  · rw [h1]
    constructor
    · intro x y
      simp only [hasOut, hasIn, innerHas_put_empty]
      constructor
      · rintro ⟨hx, hxy⟩
        refine ⟨?_, (h.sym x y).1 hxy⟩
        rintro rfl
        exact (h.member_out hxy).2 hid
      · rintro ⟨hy, hxy⟩
        refine ⟨?_, (h.sym x y).2 hxy⟩
        rintro rfl
        exact (h.member_in hxy).1 hid
    · intro k hk
      by_cases hkid : k = id
      · subst hkid; simp
      · simp only [ne_eq, hkid, not_false_eq_true, GoMap.put_other] at hk ⊢
        exact h.outKey k hk
    · intro k hk
      by_cases hkid : k = id
      · subst hkid; simp
      · simp only [ne_eq, hkid, not_false_eq_true, GoMap.put_other] at hk ⊢
        exact h.inKey k hk

theorem AdjInv_AddEdge {n : NetAgent} (h : AdjInv n) (f t : String) :
    AdjInv (AddEdge n f t).2 := by
  rcases AddEdge_cases n f t with h1 | ⟨hf, ht, h1⟩
  · rw [h1]; exact h
  · rw [h1]
    constructor
    · intro x y
      simp only [hasOut, hasIn, innerHas_addInner]
      have := h.sym x y
      simp only [hasOut, hasIn] at this
      tauto
    · intro k hk
      simp only [ne_eq, addInner_none_iff, not_and_or, not_not] at hk
      rcases hk with hk | hk
      · exact h.outKey k hk
      · rw [hk]; exact hf
    · intro k hk
      simp only [ne_eq, addInner_none_iff, not_and_or, not_not] at hk
      rcases hk with hk | hk
      · exact h.inKey k hk
      · rw [hk]; exact ht

theorem AdjInv_DeleteEdge {n : NetAgent} (h : AdjInv n) (f t : String) :
    AdjInv (DeleteEdge n f t) := by
  constructor
  · intro x y
    rw [hasOut_DeleteEdge, hasIn_DeleteEdge, h.sym x y]
  · intro k hk
    simp only [DeleteEdge, ne_eq, delInner_none_iff] at hk ⊢
    exact h.outKey k hk
  · intro k hk
    simp only [DeleteEdge, ne_eq, delInner_none_iff] at hk ⊢
    exact h.inKey k hk

/-- The edges left by `DeleteNode` on a directory that satisfies the invariants. -/
theorem hasOut_DeleteNode_inv {n : NetAgent} (h : AdjInv n) (id : String) (ρ : RangeOrder)
    (a b : String) (hid : n.nodes id ≠ none) :
    hasOut (DeleteNode n id ρ) a b = true ↔ hasOut n a b = true ∧ a ≠ id ∧ b ≠ id := by
  rw [hasOut_DeleteNode n id ρ a b hid]
  have h1 := h.sym a id
  constructor
  · rintro ⟨ha, hab, hno⟩
    refine ⟨hab, ha, ?_⟩
    rintro rfl
    exact hno ⟨h1.1 hab, rfl⟩
  · rintro ⟨hab, ha, hb⟩
    exact ⟨ha, hab, fun hh => hb hh.2⟩

theorem hasIn_DeleteNode_inv {n : NetAgent} (h : AdjInv n) (id : String) (ρ : RangeOrder)
    (a b : String) (hid : n.nodes id ≠ none) :
    hasIn (DeleteNode n id ρ) b a = true ↔ hasIn n b a = true ∧ a ≠ id ∧ b ≠ id := by
  rw [hasIn_DeleteNode n id ρ a b hid]
  have h1 := h.sym id b
  constructor
  · rintro ⟨hb, hab, hno⟩
    refine ⟨hab, ?_, hb⟩
    rintro rfl
    exact hno ⟨⟨h1.2 hab, fun hh => hb hh.2⟩, rfl⟩
  · rintro ⟨hab, ha, hb⟩
    exact ⟨hb, hab, fun hh => ha hh.2⟩

theorem AdjInv_DeleteNode {n : NetAgent} (h : AdjInv n) (id : String) (ρ : RangeOrder) :
    AdjInv (DeleteNode n id ρ) := by
  by_cases hid : n.nodes id = none
  · rw [DeleteNode_absent n id ρ hid]; exact h
  · constructor
    · intro x y
      rw [hasOut_DeleteNode_inv h id ρ x y hid, hasIn_DeleteNode_inv h id ρ x y hid, h.sym x y]
    · intro k hk
      rw [ne_eq, outEdges_DeleteNode_none n id ρ k hid, not_or] at hk
      rw [nodes_DeleteNode, GoMap.del_other _ _ _ hk.1]
      exact h.outKey k hk.2
    · intro k hk
      rw [ne_eq, inEdges_DeleteNode_none n id ρ k hid, not_or] at hk
      rw [nodes_DeleteNode, GoMap.del_other _ _ _ hk.1]
      exact h.inKey k hk.2

theorem AdjInv_apply {n : NetAgent} (h : AdjInv n) (op : Op) : AdjInv (Op.apply n op) := by
  cases op with
  | addNode id a => exact AdjInv_AddNode h id a
  | deleteNode id ρ => exact AdjInv_DeleteNode h id ρ
  | addEdge f t => exact AdjInv_AddEdge h f t
  | deleteEdge f t => exact AdjInv_DeleteEdge h f t

theorem AdjInv_foldl (ops : List Op) {n : NetAgent} (h : AdjInv n) :
    AdjInv (ops.foldl Op.apply n) := by
  induction ops generalizing n with
  | nil => exact h
  | cons op ops ih => exact ih (AdjInv_apply h op)

theorem AdjInv_run (ops : List Op) : AdjInv (run ops) :=
  AdjInv_foldl ops AdjInv_NewNetAgent

/-! ## Claims on the graph directory -/

/-- C1: in every directory reached from `NewNetAgent()` by a finite sequence
of AddNode, DeleteNode, AddEdge and DeleteEdge calls with arbitrary arguments
(failing calls included), B is in `outEdges[A]` exactly when A is in
`inEdges[B]`, for all ids A and B. -/
theorem adjacency_views_agree (ops : List Op) (A B : String) :
    (∃ s, (run ops).outEdges A = some s ∧ B ∈ s.keys) ↔
      (∃ s, (run ops).inEdges B = some s ∧ A ∈ s.keys) := by
  rw [← innerHas_iff, ← innerHas_iff]
  exact (AdjInv_run ops).sym A B

/-- C2: in every directory reached from `NewNetAgent()` by a finite sequence
of directory calls, every key of `outEdges` and of `inEdges` and every member
of one of their sets is a registered node; after `DeleteNode(X)` the id X is
neither a key nor a member of any adjacency set. -/
theorem adjacency_ids_are_nodes (ops : List Op) :
    (∀ k, (run ops).outEdges k ≠ none → (run ops).nodes k ≠ none) ∧
    (∀ k, (run ops).inEdges k ≠ none → (run ops).nodes k ≠ none) ∧
    (∀ k s x, (run ops).outEdges k = some s → x ∈ s.keys → (run ops).nodes x ≠ none) ∧
    (∀ k s x, (run ops).inEdges k = some s → x ∈ s.keys → (run ops).nodes x ≠ none) ∧
    (∀ X ρ, (DeleteNode (run ops) X ρ).nodes X = none ∧
      (DeleteNode (run ops) X ρ).outEdges X = none ∧
      (DeleteNode (run ops) X ρ).inEdges X = none ∧
      (∀ k s, (DeleteNode (run ops) X ρ).outEdges k = some s → X ∉ s.keys) ∧
      (∀ k s, (DeleteNode (run ops) X ρ).inEdges k = some s → X ∉ s.keys)) := by
  have key : ∀ ops : List Op,
      (∀ k s x, (run ops).outEdges k = some s → x ∈ s.keys → (run ops).nodes x ≠ none) ∧
      (∀ k s x, (run ops).inEdges k = some s → x ∈ s.keys → (run ops).nodes x ≠ none) := by
    intro ops
    constructor
    · intro k s x hk hx
      exact ((AdjInv_run ops).member_out ((innerHas_iff _ k x).2 ⟨s, hk, hx⟩)).2
    · intro k s x hk hx
      exact ((AdjInv_run ops).member_in ((innerHas_iff _ k x).2 ⟨s, hk, hx⟩)).1
  refine ⟨(AdjInv_run ops).outKey, (AdjInv_run ops).inKey, (key ops).1, (key ops).2, ?_⟩
  intro X ρ
  have hrun : DeleteNode (run ops) X ρ = run (ops ++ [Op.deleteNode X ρ]) := by
    simp [run, Op.apply]
  have hX : (DeleteNode (run ops) X ρ).nodes X = none := by
    rw [nodes_DeleteNode]; simp
  have hinv : AdjInv (DeleteNode (run ops) X ρ) := AdjInv_DeleteNode (AdjInv_run ops) X ρ
  refine ⟨hX, ?_, ?_, ?_, ?_⟩
  · by_contra h; exact hinv.outKey X h hX
  · by_contra h; exact hinv.inKey X h hX
  · intro k s hk hmem
    rw [hrun] at hk hX
    exact (key _).1 k s X hk hmem hX
  · intro k s hk hmem
    rw [hrun] at hk hX
    exact (key _).2 k s X hk hmem hX

/-- C3: on a directory that satisfies the adjacency invariants, `DeleteNode(X)`
leaves X unregistered, leaves every other node with its mailbox as it was,
keeps exactly the edges that do not have X as an endpoint (in both adjacency
views), keeps the router and the started flag, and changes nothing at all when
X is not a registered node. -/
theorem DeleteNode_frame (n : NetAgent) (X : String) (ρ : RangeOrder) (h : AdjInv n) :
    (DeleteNode n X ρ).nodes X = none ∧
    (∀ k, k ≠ X → (DeleteNode n X ρ).nodes k = n.nodes k) ∧
    (∀ a b, hasOut (DeleteNode n X ρ) a b = true ↔ hasOut n a b = true ∧ a ≠ X ∧ b ≠ X) ∧
    (∀ a b, hasIn (DeleteNode n X ρ) b a = true ↔ hasIn n b a = true ∧ a ≠ X ∧ b ≠ X) ∧
    (DeleteNode n X ρ).router = n.router ∧
    (DeleteNode n X ρ).started = n.started ∧
    (n.nodes X = none → DeleteNode n X ρ = n) := by
  refine ⟨by rw [nodes_DeleteNode]; simp, ?_, ?_, ?_, ?_, ?_, DeleteNode_absent n X ρ⟩
  · intro k hk
    rw [nodes_DeleteNode, GoMap.del_other _ _ _ hk]
  · intro a b
    by_cases hid : n.nodes X = none
    · rw [DeleteNode_absent n X ρ hid]
      constructor
      · intro hab
        refine ⟨hab, ?_, ?_⟩
        · rintro rfl; exact (h.member_out hab).1 hid
        · rintro rfl; exact (h.member_out hab).2 hid
      · exact fun hab => hab.1
    · exact hasOut_DeleteNode_inv h X ρ a b hid
  · intro a b
    by_cases hid : n.nodes X = none
    · rw [DeleteNode_absent n X ρ hid]
      constructor
      · intro hab
        refine ⟨hab, ?_, ?_⟩
        · rintro rfl; exact (h.member_in hab).1 hid
        · rintro rfl; exact (h.member_in hab).2 hid
      · exact fun hab => hab.1
    · exact hasIn_DeleteNode_inv h X ρ a b hid
  · unfold DeleteNode; cases n.nodes X <;> rfl
  · unfold DeleteNode; cases n.nodes X <;> rfl

/-- C3 at the directory with nodes A, B and the edge A → B, deleting A. -/
theorem DeleteNode_frame_witness :
    AdjInv netAB ∧
    ((DeleteNode netAB "A" RangeOrder.reversed).nodes "A" = none ∧
    (∀ k, k ≠ "A" → (DeleteNode netAB "A" RangeOrder.reversed).nodes k = netAB.nodes k) ∧
    (∀ a b, hasOut (DeleteNode netAB "A" RangeOrder.reversed) a b = true ↔
      hasOut netAB a b = true ∧ a ≠ "A" ∧ b ≠ "A") ∧
    (∀ a b, hasIn (DeleteNode netAB "A" RangeOrder.reversed) b a = true ↔
      hasIn netAB b a = true ∧ a ≠ "A" ∧ b ≠ "A") ∧
    (DeleteNode netAB "A" RangeOrder.reversed).router = netAB.router ∧
    (DeleteNode netAB "A" RangeOrder.reversed).started = netAB.started ∧
    (netAB.nodes "A" = none → DeleteNode netAB "A" RangeOrder.reversed = netAB)) :=
  ⟨AdjInv_run _, DeleteNode_frame netAB "A" RangeOrder.reversed (AdjInv_run _)⟩


/-! ## Lemmas on AddEdge, and the claims on AddNode and AddEdge -/

theorem GoMap.put_put {V : Type} (m : GoMap V) (k : String) (v w : V) :
    (m.put k v).put k w = m.put k w := by
  funext k'
  by_cases hk : k' = k
  · subst hk; simp
  · simp [hk]

theorem StrSet.add_add (s : StrSet) (x : String) : (s.add x).add x = s.add x :=
  StrSet.add_of_mem _ _ ((StrSet.mem_add s x x).2 (Or.inr rfl))

theorem addInner_addInner (m : GoMap StrSet) (k x : String) :
    addInner (addInner m k x) k x = addInner m k x := by
  have h : ∃ s : StrSet, addInner m k x = m.put k (s.add x) := by
    unfold addInner
    cases m k with
    | none => exact ⟨StrSet.empty, rfl⟩
    | some s => exact ⟨s, rfl⟩
  obtain ⟨s, hs⟩ := h
  rw [hs]
  simp only [addInner, GoMap.put_same, GoMap.put_put, StrSet.add_add]

theorem addInner_of_has (m : GoMap StrSet) (k x : String) (h : innerHas m k x = true) :
    addInner m k x = m := by
  obtain ⟨s, hs, hx⟩ := (innerHas_iff m k x).1 h
  simp only [addInner, hs, StrSet.add_of_mem s x hx]
  exact GoMap.put_self m k s hs

theorem addInner_other (m : GoMap StrSet) (k x k' : String) (h : k' ≠ k) :
    addInner m k x k' = m k' := by
  unfold addInner
  cases m k with
  | none => simp [h]
  | some s => simp [h]

theorem AddEdge_err_iff (n : NetAgent) (f t : String) :
    (AddEdge n f t).1 ≠ none ↔ (f = "" ∨ t = "" ∨ n.nodes f = none ∨ n.nodes t = none) := by
  unfold AddEdge
  by_cases h0 : f = "" ∨ t = ""
  · simp only [h0, if_true, ne_eq, reduceCtorEq, not_false_eq_true, true_iff]
    tauto
  · rw [if_neg h0]
    rw [not_or] at h0
    cases hf : n.nodes f with
    | none => simp
    | some nf =>
      cases ht : n.nodes t with
      | none => simp
      | some nt => simp [h0.1, h0.2]

theorem AddEdge_net_of_ok (n : NetAgent) (f t : String) (h : (AddEdge n f t).1 = none) :
    (AddEdge n f t).2 =
      { n with outEdges := addInner n.outEdges f t, inEdges := addInner n.inEdges t f } := by
  unfold AddEdge at h ⊢
  by_cases h0 : f = "" ∨ t = ""
  · simp [h0] at h
  · rw [if_neg h0] at h ⊢
    cases hf : n.nodes f with
    | none => simp [hf] at h
    | some nf =>
      cases ht : n.nodes t with
      | none => simp [hf, ht] at h
      | some nt => rfl

theorem AddEdge_net_of_err (n : NetAgent) (f t : String) (h : (AddEdge n f t).1 ≠ none) :
    (AddEdge n f t).2 = n := by
  unfold AddEdge at h ⊢
  by_cases h0 : f = "" ∨ t = ""
  · rw [if_pos h0]
  · rw [if_neg h0] at h ⊢
    cases hf : n.nodes f with
    | none => rfl
    | some nf =>
      cases ht : n.nodes t with
      | none => rfl
      | some nt => simp [hf, ht] at h

/-- C4: `AddNode(id, capability)` returns an error exactly when id is empty,
the capability is nil or id is already registered; with an error the whole
directory is unchanged; without one the directory gains the node id with an
empty mailbox and empty incoming and outgoing sets, and nothing else changes. -/
theorem AddNode_contract (n : NetAgent) (id : String) (a : Option AgentRef) :
    ((AddNode n id a).err ≠ none ↔ (id = "" ∨ a = none ∨ n.nodes id ≠ none)) ∧
    ((AddNode n id a).err ≠ none → (AddNode n id a).net = n ∧ (AddNode n id a).node = none) ∧
    ((AddNode n id a).err = none →
      ∃ ag, a = some ag ∧
        (AddNode n id a).node = some ⟨id, ag, [], []⟩ ∧
        (AddNode n id a).net.nodes id = some ⟨id, ag, [], []⟩ ∧
        (AddNode n id a).net.inEdges id = some StrSet.empty ∧
        (AddNode n id a).net.outEdges id = some StrSet.empty ∧
        (∀ k, k ≠ id → (AddNode n id a).net.nodes k = n.nodes k ∧
          (AddNode n id a).net.inEdges k = n.inEdges k ∧
          (AddNode n id a).net.outEdges k = n.outEdges k) ∧
        (AddNode n id a).net.router = n.router ∧
        (AddNode n id a).net.started = n.started) := by
  unfold AddNode
  by_cases h0 : id = ""
  · simp [h0]
  · rw [if_neg h0]
    cases a with
    | none => simp
    | some ag =>
      cases hid : n.nodes id with
      | some nd => simp
      | none =>
        refine ⟨by simp [h0], by simp, fun _ => ⟨ag, rfl, rfl, ?_, ?_, ?_, ?_, rfl, rfl⟩⟩
        · simp [NewAgentNode]
        · simp
        · simp
        · intro k hk
          simp [hk]

/-- C4 on the directory with nodes A, B and the edge A → B: registering C
succeeds and gives C an empty mailbox and empty adjacency sets; an empty id,
a nil capability and the registered id A are refused and change nothing. -/
theorem AddNode_contract_witness :
    (AddNode netAB "C" (some 3)).err = none ∧
    mailbox (AddNode netAB "C" (some 3)).net "C" = some [] ∧
    (AddNode netAB "C" (some 3)).net.inEdges "C" = some StrSet.empty ∧
    (AddNode netAB "C" (some 3)).net.outEdges "C" = some StrSet.empty ∧
    (AddNode netAB "" (some 3)).err = some (Errorf "node id is required" []) ∧
    (AddNode netAB "C" none).err = some (Errorf "agent is required" []) ∧
    (AddNode netAB "A" (some 3)).err = some (Errorf "node %q already exists" ["A"]) ∧
    (AddNode netAB "A" (some 3)).net = netAB :=
  ⟨by decide, by decide, by decide, by decide, by decide, by decide, by decide,
    ((AddNode_contract netAB "A" (some 3)).2.1 (by decide)).1⟩

/-- C5: `AddEdge(from, to)` returns an error exactly when from or to is empty
or is not a registered node; with an error the whole directory is unchanged;
without one the nodes, their mailboxes and every other adjacency set are
unchanged and the edges of both adjacency views are the old ones together
with (from, to), also when from = to. -/
theorem AddEdge_contract (n : NetAgent) (f t : String) :
    ((AddEdge n f t).1 ≠ none ↔ (f = "" ∨ t = "" ∨ n.nodes f = none ∨ n.nodes t = none)) ∧
    ((AddEdge n f t).1 ≠ none → (AddEdge n f t).2 = n) ∧
    ((AddEdge n f t).1 = none →
      (AddEdge n f t).2.nodes = n.nodes ∧
      (AddEdge n f t).2.router = n.router ∧
      (AddEdge n f t).2.started = n.started ∧
      (∀ a b, hasOut (AddEdge n f t).2 a b = true ↔ hasOut n a b = true ∨ (a = f ∧ b = t)) ∧
      (∀ a b, hasIn (AddEdge n f t).2 b a = true ↔ hasIn n b a = true ∨ (a = f ∧ b = t)) ∧
      (∀ k, k ≠ f → (AddEdge n f t).2.outEdges k = n.outEdges k) ∧
      (∀ k, k ≠ t → (AddEdge n f t).2.inEdges k = n.inEdges k)) := by
  refine ⟨AddEdge_err_iff n f t, AddEdge_net_of_err n f t, ?_⟩
  intro h
  rw [AddEdge_net_of_ok n f t h]
  refine ⟨rfl, rfl, rfl, ?_, ?_, ?_, ?_⟩
  · intro a b
    simp only [hasOut, innerHas_addInner]
  · intro a b
    simp only [hasIn, innerHas_addInner]
    tauto
  · intro k hk
    exact addInner_other _ _ _ _ hk
  · intro k hk
    exact addInner_other _ _ _ _ hk

/-- C5 at the directory with nodes A, B and the edge A → B: the self-loop
B → B is accepted, an edge to the unregistered Z is refused. -/
theorem AddEdge_contract_witness :
    (AddEdge netAB "B" "B").1 = none ∧
    hasOut (AddEdge netAB "B" "B").2 "B" "B" = true ∧
    hasIn (AddEdge netAB "B" "B").2 "B" "B" = true ∧
    (AddEdge netAB "A" "Z").1 = some (Errorf "to node %q not found" ["Z"]) ∧
    (AddEdge netAB "A" "Z").2 = netAB :=
  ⟨by decide,
    ((AddEdge_contract netAB "B" "B").2.2 (by decide)).2.2.2.1 "B" "B" |>.2 (Or.inr ⟨rfl, rfl⟩),
    ((AddEdge_contract netAB "B" "B").2.2 (by decide)).2.2.2.2.1 "B" "B" |>.2 (Or.inr ⟨rfl, rfl⟩),
    by decide,
    (AddEdge_contract netAB "A" "Z").2.1 (by decide)⟩

/-- C6: calling `AddEdge(from, to)` twice gives the same directory and the
same result as calling it once, on every directory; when the edge is already
present in both views the call changes nothing, so the sizes of
`outEdges[from]` and `inEdges[to]` stay the same; and on a directory that
satisfies the adjacency invariants and has no node with the empty id, a call
for an edge that is present succeeds. -/
theorem AddEdge_idempotent (n : NetAgent) (f t : String) :
    (AddEdge (AddEdge n f t).2 f t).2 = (AddEdge n f t).2 ∧
    (AddEdge (AddEdge n f t).2 f t).1 = (AddEdge n f t).1 ∧
    (hasOut n f t = true → hasIn n t f = true →
      (AddEdge n f t).2 = n ∧
      ((AddEdge n f t).2.outEdges f).map (fun s => s.keys.length) =
        (n.outEdges f).map (fun s => s.keys.length) ∧
      ((AddEdge n f t).2.inEdges t).map (fun s => s.keys.length) =
        (n.inEdges t).map (fun s => s.keys.length)) ∧
    (AdjInv n → n.nodes "" = none → hasOut n f t = true →
      (AddEdge n f t).1 = none ∧ (AddEdge n f t).2 = n) := by
  have hsame : hasOut n f t = true → hasIn n t f = true → (AddEdge n f t).2 = n := by
    intro ho hi
    by_cases he : (AddEdge n f t).1 = none
    · rw [AddEdge_net_of_ok n f t he]
      simp only [hasOut, hasIn] at ho hi
      rw [addInner_of_has _ _ _ ho, addInner_of_has _ _ _ hi]
    · exact AddEdge_net_of_err n f t he
  refine ⟨?_, ?_, ?_, ?_⟩
  · by_cases he : (AddEdge n f t).1 = none
    · have hn : ¬ (f = "" ∨ t = "" ∨ n.nodes f = none ∨ n.nodes t = none) := by
        rw [← AddEdge_err_iff]; simpa using he
      have he2 : (AddEdge (AddEdge n f t).2 f t).1 = none := by
        have := (AddEdge_err_iff (AddEdge n f t).2 f t).not
        rw [AddEdge_net_of_ok n f t he] at this ⊢
        simpa using this.2 hn
      rw [AddEdge_net_of_ok _ f t he2, AddEdge_net_of_ok n f t he]
      simp only [addInner_addInner]
    · rw [AddEdge_net_of_err n f t he, AddEdge_net_of_err n f t he]
  · by_cases he : (AddEdge n f t).1 = none
    · have hn : ¬ (f = "" ∨ t = "" ∨ n.nodes f = none ∨ n.nodes t = none) := by
        rw [← AddEdge_err_iff]; simpa using he
      have := (AddEdge_err_iff (AddEdge n f t).2 f t).not
      rw [AddEdge_net_of_ok n f t he] at this ⊢
      rw [he]
      simpa using this.2 hn
    · rw [AddEdge_net_of_err n f t he]
  · intro ho hi
    have := hsame ho hi
    exact ⟨this, by rw [this], by rw [this]⟩
  · intro hinv hne ho
    have hi := (hinv.sym f t).1 ho
    have hreg := hinv.member_out ho
    refine ⟨?_, hsame ho hi⟩
    have := (AddEdge_err_iff n f t).not
    have hn : ¬ (f = "" ∨ t = "" ∨ n.nodes f = none ∨ n.nodes t = none) := by
      rintro (h | h | h | h)
      · subst h; exact hreg.1 hne
      · subst h; exact hreg.2 hne
      · exact hreg.1 h
      · exact hreg.2 h
    simpa using this.2 hn

/-- C6 at the directory with nodes A, B and the edge A → B: adding A → B
again succeeds and changes nothing. -/
theorem AddEdge_idempotent_witness :
    AdjInv netAB ∧ netAB.nodes "" = none ∧ hasOut netAB "A" "B" = true ∧
    (AddEdge netAB "A" "B").1 = none ∧ (AddEdge netAB "A" "B").2 = netAB :=
  ⟨AdjInv_run _, by decide, by decide,
    (AddEdge_idempotent netAB "A" "B").2.2.2 (AdjInv_run _) (by decide) (by decide)⟩

/-! ## Lemmas on target resolution and delivery -/

theorem mem_foldl_add (ks : List String) (acc : StrSet) (x : String) :
    x ∈ (ks.foldl StrSet.add acc).keys ↔ x ∈ acc.keys ∨ x ∈ ks := by
  induction ks generalizing acc with
  | nil => simp
  | cons k ks ih =>
    rw [List.foldl_cons, ih, StrSet.mem_add, List.mem_cons]
    tauto

/-- The loop over `toIDs` ends without error exactly when every non-empty
requested id has an edge from `fromID`; it then holds the non-empty requested
ids. -/
theorem collectTargets_ok (n : NetAgent) (f : String) (ids : List String) (acc : StrSet) :
    ((collectTargets n f ids acc).2 = none ↔
      ∀ id ∈ ids, id ≠ "" → hasOut n f id = true) ∧
    ((collectTargets n f ids acc).2 = none →
      ∀ x, x ∈ (collectTargets n f ids acc).1.keys ↔ x ∈ acc.keys ∨ (x ∈ ids ∧ x ≠ "")) := by
  induction ids generalizing acc with
  | nil => simp [collectTargets]
  | cons id ids ih =>
    by_cases h0 : id = ""
    · subst h0
      simp only [collectTargets, if_true, List.mem_cons]
      refine ⟨?_, ?_⟩
      · rw [(ih acc).1]
        constructor
        · rintro h x (rfl | hx) hne
          · exact absurd rfl hne
          · exact h x hx hne
        · intro h x hx hne
          exact h x (Or.inr hx) hne
      · intro h x
        rw [(ih acc).2 h x]
        constructor
        · rintro (h1 | ⟨h1, h2⟩)
          · exact Or.inl h1
          · exact Or.inr ⟨Or.inr h1, h2⟩
        · rintro (h1 | ⟨rfl | h1, h2⟩)
          · exact Or.inl h1
          · exact absurd rfl h2
          · exact Or.inr ⟨h1, h2⟩
    · by_cases he : hasOut n f id = true
      · simp only [collectTargets, h0, if_false, he, if_true, List.mem_cons]
        refine ⟨?_, ?_⟩
        · rw [(ih (acc.add id)).1]
          constructor
          · rintro h x (rfl | hx) hne
            · exact he
            · exact h x hx hne
          · intro h x hx hne
            exact h x (Or.inr hx) hne
        · intro h x
          rw [(ih (acc.add id)).2 h x, StrSet.mem_add]
          constructor
          · rintro ((h1 | rfl) | ⟨h1, h2⟩)
            · exact Or.inl h1
            · exact Or.inr ⟨Or.inl rfl, h0⟩
            · exact Or.inr ⟨Or.inr h1, h2⟩
          · rintro (h1 | ⟨rfl | h1, h2⟩)
            · exact Or.inl (Or.inl h1)
            · exact Or.inl (Or.inr rfl)
            · exact Or.inr ⟨h1, h2⟩
      · simp only [collectTargets, h0, if_false, he, List.mem_cons]
        refine ⟨?_, ?_⟩
        · constructor
          · intro h; simp at h
          · intro h
            exact absurd (h id (Or.inl rfl) h0) he
        · intro h
          simp at h

/-- When some non-empty requested id has no edge from `fromID`, the loop over
`toIDs` ends with the missing-edge error for such an id. -/
theorem collectTargets_err (n : NetAgent) (f : String) (ids : List String) (acc : StrSet)
    (h : ∃ id ∈ ids, id ≠ "" ∧ hasOut n f id = false) :
    ∃ id ∈ ids, id ≠ "" ∧ hasOut n f id = false ∧
      (collectTargets n f ids acc).2 = some (Errorf "no edge from %q to %q" [f, id]) := by
  induction ids generalizing acc with
  | nil => simp at h
  | cons id ids ih =>
    by_cases h0 : id = ""
    · subst h0
      obtain ⟨x, hx, hne, hno⟩ := h
      rcases List.mem_cons.1 hx with rfl | hx
      · exact absurd rfl hne
      · obtain ⟨y, hy, h1, h2, h3⟩ := ih acc ⟨x, hx, hne, hno⟩
        exact ⟨y, List.mem_cons_of_mem _ hy, h1, h2, by simpa [collectTargets] using h3⟩
    · by_cases he : hasOut n f id = true
      · obtain ⟨x, hx, hne, hno⟩ := h
        rcases List.mem_cons.1 hx with rfl | hx
        · rw [he] at hno; exact absurd hno (by simp)
        · obtain ⟨y, hy, h1, h2, h3⟩ := ih (acc.add id) ⟨x, hx, hne, hno⟩
          exact ⟨y, List.mem_cons_of_mem _ hy, h1, h2, by simpa [collectTargets, h0, he] using h3⟩
      · refine ⟨id, List.mem_cons_self _ _, h0, by simpa using he, ?_⟩
        simp [collectTargets, h0, he]

/-- What the delivery loop does on duplicate-free registered targets: it
enqueues the batch on a prefix `done` of the targets, one batch each, counts
them, and stops without error at the end of the list or with the
channel-full error at the first target whose mailbox is at capacity. -/
theorem deliver_spec (batch : List Message) (ts : List String) (n : NetAgent) (d : Nat)
    (hnd : ts.Nodup) (hreg : ∀ id ∈ ts, n.nodes id ≠ none) :
    ∃ done rest, ts = done ++ rest ∧
      (deliver batch ts n d).1 = d + done.length ∧
      (∀ id ∈ done, ∃ node, n.nodes id = some node ∧ node.InputChan.length < chanCap ∧
        (deliver batch ts n d).2.2.nodes id = some (enqueue node batch)) ∧
      (∀ id, id ∉ done → (deliver batch ts n d).2.2.nodes id = n.nodes id) ∧
      (deliver batch ts n d).2.2.inEdges = n.inEdges ∧
      (deliver batch ts n d).2.2.outEdges = n.outEdges ∧
      (deliver batch ts n d).2.2.router = n.router ∧
      (deliver batch ts n d).2.2.started = n.started ∧
      (rest = [] → (deliver batch ts n d).2.1 = none) ∧
      (∀ id rest1, rest = id :: rest1 → ∃ node, n.nodes id = some node ∧
        ¬ node.InputChan.length < chanCap ∧
        (deliver batch ts n d).2.1 = some (Errorf "input channel full for node %q" [node.ID])) := by
  induction ts generalizing n d with
  | nil =>
    refine ⟨[], [], rfl, ?_⟩
    simp [deliver]
  | cons id ts ih =>
    have hid : id ∉ ts := (List.nodup_cons.1 hnd).1
    have hts : ts.Nodup := (List.nodup_cons.1 hnd).2
    cases hnode : n.nodes id with
    | none => exact absurd hnode (hreg id (List.mem_cons_self _ _))
    | some node =>
      by_cases hroom : node.InputChan.length < chanCap
      · have hreg1 : ∀ x ∈ ts,
            ({ n with nodes := n.nodes.put id (enqueue node batch) } : NetAgent).nodes x ≠ none := by
          intro x hx
          have hxid : x ≠ id := fun h => hid (h ▸ hx)
          simp only [ne_eq, hxid, not_false_eq_true, GoMap.put_other]
          exact hreg x (List.mem_cons_of_mem _ hx)
        obtain ⟨done, rest, hsplit, hcount, hdone, hother, hin, hout, hr, hs, hnil, hcons⟩ :=
          ih { n with nodes := n.nodes.put id (enqueue node batch) } (d + 1) hts hreg1
        have hiddone : id ∉ done := fun h => hid (hsplit ▸ List.mem_append_left _ h)
        refine ⟨id :: done, rest, by rw [hsplit]; rfl, ?_, ?_, ?_, ?_, ?_, ?_, ?_, ?_, ?_⟩
        · simp only [deliver, hnode, hroom, if_true, hcount, List.length_cons]
          omega
        · intro x hx
          rcases List.mem_cons.1 hx with rfl | hx
          · refine ⟨node, hnode, hroom, ?_⟩
            simp only [deliver, hnode, hroom, if_true]
            rw [hother x hiddone]
            simp
          · obtain ⟨nd, h1, h2, h3⟩ := hdone x hx
            have hxid : x ≠ id := fun h => hiddone (h ▸ hx)
            simp only [ne_eq, hxid, not_false_eq_true, GoMap.put_other] at h1
            exact ⟨nd, h1, h2, by simpa only [deliver, hnode, hroom, if_true] using h3⟩
        · intro x hx
          have hxid : x ≠ id := fun h => hx (h ▸ List.mem_cons_self _ _)
          have hxd : x ∉ done := fun h => hx (List.mem_cons_of_mem _ h)
          simp only [deliver, hnode, hroom, if_true]
          rw [hother x hxd]
          simp [hxid]
        · simpa only [deliver, hnode, hroom, if_true] using hin
        · simpa only [deliver, hnode, hroom, if_true] using hout
        · simpa only [deliver, hnode, hroom, if_true] using hr
        · simpa only [deliver, hnode, hroom, if_true] using hs
        · intro h
          simpa only [deliver, hnode, hroom, if_true] using hnil h
        · intro x rest1 h
          obtain ⟨nd, h1, h2, h3⟩ := hcons x rest1 h
          have hxts : x ∈ ts := hsplit ▸ List.mem_append_right _ (h ▸ List.mem_cons_self _ _)
          have hxid : x ≠ id := fun h => hid (h ▸ hxts)
          simp only [ne_eq, hxid, not_false_eq_true, GoMap.put_other] at h1
          exact ⟨nd, h1, h2, by simpa only [deliver, hnode, hroom, if_true] using h3⟩
      · refine ⟨[], id :: ts, rfl, ?_, ?_, ?_, ?_, ?_, ?_, ?_, ?_, ?_⟩
        · simp [deliver, hnode, hroom]
        · intro x hx; simp at hx
        · intro x _; simp [deliver, hnode, hroom]
        · simp [deliver, hnode, hroom]
        · simp [deliver, hnode, hroom]
        · simp [deliver, hnode, hroom]
        · simp [deliver, hnode, hroom]
        · intro h; simp at h
        · intro x rest1 h
          obtain ⟨rfl, -⟩ := List.cons.inj h
          exact ⟨node, hnode, hroom, by simp [deliver, hnode, hroom]⟩

/-- The members of the target set, when it is built without error. -/
theorem targetSet_mem (n : NetAgent) (f : String) (tos : List String) (ρ : RangeOrder)
    (h : (targetSet n f tos ρ).2 = none) (x : String) :
    x ∈ (targetSet n f tos ρ).1.keys ↔
      (if tos = [] then hasOut n f x = true else x ∈ tos ∧ x ≠ "") := by
  unfold targetSet at h ⊢
  by_cases hto : tos = []
  · subst hto
    simp only [List.length_nil, if_true, mem_foldl_add, mem_rangeKeys, hasOut]
    simp [StrSet.empty]
  · have hlen : ¬ tos.length = 0 := fun h => hto (List.length_eq_zero.1 h)
    rw [if_neg hlen] at h ⊢
    rw [if_neg hto, (collectTargets_ok n f tos StrSet.empty).2 h x]
    simp [StrSet.empty]

theorem resolveTargets_unregistered (n : NetAgent) (f : String) (tos : List String)
    (ρ : RangeOrder) (h : n.nodes f = none) :
    resolveTargets n f tos ρ = ([], some (Errorf "from node %q not found" [f])) := by
  simp [resolveTargets, h]

/-- What a successful target resolution returns: the sender is registered and
the targets are, without repetition and in some order, the registered ids
among the outgoing neighbours of the sender (empty `toIDs`) or among the
non-empty requested ids, all of which then have an edge from the sender. -/
theorem resolveTargets_ok (n : NetAgent) (f : String) (tos : List String) (ρ : RangeOrder)
    (h : (resolveTargets n f tos ρ).2 = none) :
    n.nodes f ≠ none ∧
    (resolveTargets n f tos ρ).1.Nodup ∧
    (∀ id, id ∈ (resolveTargets n f tos ρ).1 ↔
      n.nodes id ≠ none ∧ (if tos = [] then hasOut n f id = true else id ∈ tos ∧ id ≠ "")) ∧
    (tos ≠ [] → ∀ id ∈ tos, id ≠ "" → hasOut n f id = true) := by
  unfold resolveTargets at h ⊢
  cases hf : n.nodes f with
  | none => simp [hf] at h
  | some nf =>
    simp only [hf] at h ⊢
    cases hts : targetSet n f tos ρ with
    | mk set err =>
      cases err with
      | some e => simp [hts] at h
      | none =>
        simp only [hts] at h ⊢
        have hmem := targetSet_mem n f tos ρ (by rw [hts])
        rw [hts] at hmem
        by_cases hlen : set.keys.length = 0
        · simp [hlen] at h
        · simp only [hlen, if_false]
          refine ⟨by simp, ?_, ?_, ?_⟩
          · exact ((ρ.perm 1 set.keys).nodup_iff.2 set.nodup).filter _
          · intro id
            rw [List.mem_filter, (ρ.perm 1 set.keys).mem_iff, hmem id]
            simp only [Option.isSome_iff_ne_none, ne_eq]
            tauto
          · intro hto
            have hlen2 : ¬ tos.length = 0 := fun h => hto (List.length_eq_zero.1 h)
            have h2 : (collectTargets n f tos StrSet.empty).2 = none := by
              have := hts
              unfold targetSet at this
              rw [if_neg hlen2] at this
              rw [this]
            exact (collectTargets_ok n f tos StrSet.empty).1.1 h2

/-- A sender without outgoing edges and with empty `toIDs` has no target. -/
theorem resolveTargets_no_neighbour (n : NetAgent) (f : String) (ρ : RangeOrder)
    (hreg : n.nodes f ≠ none) (h : ∀ b, hasOut n f b = false) :
    resolveTargets n f [] ρ = ([], some (Errorf "no target nodes available" [])) := by
  unfold resolveTargets
  cases hf : n.nodes f with
  | none => exact absurd hf hreg
  | some nf =>
    have hkeys : (targetSet n f [] ρ).1.keys = [] := by
      rw [List.eq_nil_iff_forall_not_mem]
      intro x hx
      rw [targetSet_mem n f [] ρ (by simp [targetSet]) x] at hx
      simp [h x] at hx
    have herr : (targetSet n f [] ρ).2 = none := by simp [targetSet]
    cases hts : targetSet n f [] ρ with
    | mk set err =>
      rw [hts] at hkeys herr
      simp only at hkeys herr
      subst herr
      simp [hkeys]

/-- A missing edge to a non-empty requested id makes the resolution of a
registered sender fail with the missing-edge error. -/
theorem resolveTargets_missing_edge (n : NetAgent) (f : String) (tos : List String)
    (ρ : RangeOrder) (hreg : n.nodes f ≠ none)
    (h : ∃ id ∈ tos, id ≠ "" ∧ hasOut n f id = false) :
    ∃ id ∈ tos, id ≠ "" ∧ hasOut n f id = false ∧
      resolveTargets n f tos ρ = ([], some (Errorf "no edge from %q to %q" [f, id])) := by
  obtain ⟨id, hid, hne, hno, herr⟩ := collectTargets_err n f tos StrSet.empty h
  refine ⟨id, hid, hne, hno, ?_⟩
  have hto : ¬ tos.length = 0 := by
    intro h0
    rw [List.length_eq_zero] at h0
    subst h0
    simp at hid
  unfold resolveTargets
  cases hf : n.nodes f with
  | none => exact absurd hf hreg
  | some nf =>
    cases hts : targetSet n f tos ρ with
    | mk set err =>
      have : err = some (Errorf "no edge from %q to %q" [f, id]) := by
        have h2 := hts
        unfold targetSet at h2
        rw [if_neg hto] at h2
        rw [h2] at herr
        exact herr
      subst this
      rfl

theorem send_of_resolve_err (n : NetAgent) (f : String) (tos : List String)
    (ms : List Message) (ρ : RangeOrder) (ts : List String) (e : Error)
    (h : resolveTargets n f tos ρ = (ts, some e)) :
    send n f tos ms ρ = ⟨0, some e, n, ms⟩ := by
  simp [send, h]

theorem send_of_resolve_ok (n : NetAgent) (f : String) (tos : List String)
    (ms : List Message) (ρ : RangeOrder) (h : (resolveTargets n f tos ρ).2 = none) :
    send n f tos ms ρ =
      ⟨(deliver (stamp f ms) (resolveTargets n f tos ρ).1 n 0).1,
        (deliver (stamp f ms) (resolveTargets n f tos ρ).1 n 0).2.1,
        (deliver (stamp f ms) (resolveTargets n f tos ρ).1 n 0).2.2, stamp f ms⟩ := by
  unfold send
  cases hr : resolveTargets n f tos ρ with
  | mk ts err =>
    rw [hr] at h
    simp only at h
    subst h
    rfl

/-- What `send` does once its targets are resolved. -/
theorem send_spec (n : NetAgent) (f : String) (tos : List String) (ms : List Message)
    (ρ : RangeOrder) (h : (resolveTargets n f tos ρ).2 = none) :
    ∃ done rest, (resolveTargets n f tos ρ).1 = done ++ rest ∧
      (send n f tos ms ρ).delivered = done.length ∧
      (∀ id ∈ done, ∃ node, n.nodes id = some node ∧ node.InputChan.length < chanCap ∧
        (send n f tos ms ρ).net.nodes id = some (enqueue node (stamp f ms))) ∧
      (∀ id, id ∉ done → (send n f tos ms ρ).net.nodes id = n.nodes id) ∧
      (send n f tos ms ρ).net.inEdges = n.inEdges ∧
      (send n f tos ms ρ).net.outEdges = n.outEdges ∧
      (send n f tos ms ρ).net.router = n.router ∧
      (send n f tos ms ρ).net.started = n.started ∧
      (send n f tos ms ρ).messages = stamp f ms ∧
      (rest = [] → (send n f tos ms ρ).err = none) ∧
      (∀ id rest1, rest = id :: rest1 → ∃ node, n.nodes id = some node ∧
        ¬ node.InputChan.length < chanCap ∧
        (send n f tos ms ρ).err = some (Errorf "input channel full for node %q" [node.ID])) := by
  obtain ⟨_, hnd, hmem, _⟩ := resolveTargets_ok n f tos ρ h
  obtain ⟨done, rest, h1, h2, h3, h4, h5, h6, h7, h8, h9, h10⟩ :=
    deliver_spec (stamp f ms) (resolveTargets n f tos ρ).1 n 0 hnd
      (fun id hid => ((hmem id).1 hid).1)
  rw [send_of_resolve_ok n f tos ms ρ h]
  exact ⟨done, rest, h1, by simpa using h2, h3, h4, h5, h6, h7, h8, rfl, h9, h10⟩

/-- A registered sender with an outgoing neighbour and empty `toIDs` always
resolves its targets. -/
theorem resolveTargets_neighbour_ok (n : NetAgent) (f : String) (ρ : RangeOrder)
    (hreg : n.nodes f ≠ none) (h : ∃ b, hasOut n f b = true) :
    (resolveTargets n f [] ρ).2 = none := by
  obtain ⟨b, hb⟩ := h
  have herr : (targetSet n f [] ρ).2 = none := by simp [targetSet]
  have hmem : b ∈ (targetSet n f [] ρ).1.keys := by
    rw [targetSet_mem n f [] ρ herr b]
    simpa using hb
  unfold resolveTargets
  cases hf : n.nodes f with
  | none => exact absurd hf hreg
  | some nf =>
    cases hts : targetSet n f [] ρ with
    | mk set err =>
      rw [hts] at herr hmem
      simp only at herr hmem
      subst herr
      have hlen : ¬ set.keys.length = 0 := by
        intro h0
        rw [List.length_eq_zero] at h0
        rw [h0] at hmem
        simp at hmem
      simp [hlen]

theorem stamp_forall₂ (f : String) (ms : List Message) :
    List.Forall₂ (fun b m => b.FromNodeID = f ∧ b.Role = m.Role ∧ b.Content = m.Content ∧
      b.Name = m.Name ∧ b.Description = m.Description ∧ b.ToolCallID = m.ToolCallID ∧
      b.ToolCalls = m.ToolCalls) (stamp f ms) ms := by
  induction ms with
  | nil => exact List.Forall₂.nil
  | cons m ms ih => exact List.Forall₂.cons ⟨rfl, rfl, rfl, rfl, rfl, rfl, rfl⟩ ih

/-- Directory calls never put a batch into a mailbox. -/
theorem InputChan_apply (n : NetAgent) (op : Op)
    (h : ∀ id node, n.nodes id = some node → node.InputChan = []) :
    ∀ id node, (Op.apply n op).nodes id = some node → node.InputChan = [] := by
  intro id node hnode
  cases op with
  | addNode x a =>
    simp only [Op.apply] at hnode
    rcases AddNode_cases n x a with h1 | ⟨_, ag, _, h1⟩
    · rw [h1] at hnode; exact h id node hnode
    · rw [h1] at hnode
      by_cases hx : id = x
      · subst hx
        simp only [GoMap.put_same, Option.some.injEq] at hnode
        rw [← hnode]; rfl
      · simp only [ne_eq, hx, not_false_eq_true, GoMap.put_other] at hnode
        exact h id node hnode
  | deleteNode x ρ =>
    simp only [Op.apply, nodes_DeleteNode] at hnode
    by_cases hx : id = x
    · subst hx; simp at hnode
    · simp only [ne_eq, hx, not_false_eq_true, GoMap.del_other] at hnode
      exact h id node hnode
  | addEdge x y =>
    simp only [Op.apply] at hnode
    rcases AddEdge_cases n x y with h1 | ⟨_, _, h1⟩
    · rw [h1] at hnode; exact h id node hnode
    · rw [h1] at hnode; exact h id node hnode
  | deleteEdge x y => exact h id node hnode

theorem InputChan_run (ops : List Op) :
    ∀ id node, (run ops).nodes id = some node → node.InputChan = [] := by
  have key : ∀ (ops : List Op) (n : NetAgent),
      (∀ id node, n.nodes id = some node → node.InputChan = []) →
      ∀ id node, (ops.foldl Op.apply n).nodes id = some node → node.InputChan = [] := by
    intro ops
    induction ops with
    | nil => intro n h; exact h
    | cons op ops ih => intro n h; exact ih _ (InputChan_apply n op h)
  exact key ops NewNetAgent (by intro id node h; simp [NewNetAgent] at h)

/-- No directory reached by directory calls has a node with the empty id. -/
theorem nodes_empty_run (ops : List Op) : (run ops).nodes "" = none := by
  have key : ∀ (ops : List Op) (n : NetAgent), n.nodes "" = none →
      (ops.foldl Op.apply n).nodes "" = none := by
    intro ops
    induction ops with
    | nil => intro n h; exact h
    | cons op ops ih =>
      intro n h
      apply ih
      cases op with
      | addNode x a =>
        simp only [Op.apply]
        by_cases hx : x = ""
        · subst hx
          simpa [AddNode] using h
        · rcases AddNode_cases n x a with h1 | ⟨_, ag, _, h1⟩
          · rw [h1]; exact h
          · rw [h1]
            simp only [ne_eq, Ne.symm hx, not_false_eq_true, GoMap.put_other]
            exact h
      | deleteNode x ρ =>
        simp only [Op.apply, nodes_DeleteNode]
        by_cases hx : "" = x
        · subst hx; simp
        · simp only [ne_eq, hx, not_false_eq_true, GoMap.del_other]; exact h
      | addEdge x y =>
        simp only [Op.apply]
        rcases AddEdge_cases n x y with h1 | ⟨_, _, h1⟩
        · rw [h1]; exact h
        · rw [h1]; exact h
      | deleteEdge x y => exact h
  exact key ops NewNetAgent rfl

/-- A `send` call keeps the set of registered ids and both adjacency maps. -/
theorem send_keeps_directory (n : NetAgent) (f : String) (tos : List String)
    (ms : List Message) (ρ : RangeOrder) :
    (∀ id, (send n f tos ms ρ).net.nodes id = none ↔ n.nodes id = none) ∧
    (send n f tos ms ρ).net.inEdges = n.inEdges ∧
    (send n f tos ms ρ).net.outEdges = n.outEdges := by
  cases herr : (resolveTargets n f tos ρ).2 with
  | some e =>
    rw [send_of_resolve_err n f tos ms ρ (resolveTargets n f tos ρ).1 e (by rw [← herr])]
    exact ⟨fun _ => Iff.rfl, rfl, rfl⟩
  | none =>
    obtain ⟨done, rest, _, _, hdone, hother, hin, hout, _⟩ := send_spec n f tos ms ρ herr
    refine ⟨?_, hin, hout⟩
    intro id
    by_cases hid : id ∈ done
    · obtain ⟨node, h1, _, h2⟩ := hdone id hid
      simp [h1, h2]
    · rw [hother id hid]

/-- A `send` call keeps the adjacency invariants. -/
theorem AdjInv_send {n : NetAgent} (h : AdjInv n) (f : String) (tos : List String)
    (ms : List Message) (ρ : RangeOrder) : AdjInv (send n f tos ms ρ).net := by
  obtain ⟨hn, hin, hout⟩ := send_keeps_directory n f tos ms ρ
  constructor
  · intro a b
    simp only [hasOut, hasIn, hin, hout]
    exact h.sym a b
  · intro k hk
    rw [hout] at hk
    rw [ne_eq, hn k]
    exact h.outKey k hk
  · intro k hk
    rw [hin] at hk
    rw [ne_eq, hn k]
    exact h.inKey k hk

/-! ## Claims on dispatch -/

/-- C7: the batch that `send` enqueues is the caller's message list with the
provenance of every message set to fromID and every other field as the caller
gave it; every mailbox is either unchanged or has gained that batch. -/
theorem send_stamps_provenance (n : NetAgent) (f : String) (tos : List String)
    (ms : List Message) (ρ : RangeOrder) :
    ∃ batch : List Message,
      List.Forall₂ (fun b m => b.FromNodeID = f ∧ b.Role = m.Role ∧ b.Content = m.Content ∧
        b.Name = m.Name ∧ b.Description = m.Description ∧ b.ToolCallID = m.ToolCallID ∧
        b.ToolCalls = m.ToolCalls) batch ms ∧
      ∀ id, (send n f tos ms ρ).net.nodes id = n.nodes id ∨
        ∃ node, n.nodes id = some node ∧
          (send n f tos ms ρ).net.nodes id =
            some { node with InputChan := node.InputChan ++ [batch] } := by
  refine ⟨stamp f ms, stamp_forall₂ f ms, ?_⟩
  intro id
  cases herr : (resolveTargets n f tos ρ).2 with
  | some e =>
    left
    rw [send_of_resolve_err n f tos ms ρ (resolveTargets n f tos ρ).1 e (by rw [← herr])]
  | none =>
    obtain ⟨done, rest, _, _, hdone, hother, _⟩ := send_spec n f tos ms ρ herr
    by_cases hid : id ∈ done
    · obtain ⟨node, h1, _, h2⟩ := hdone id hid
      exact Or.inr ⟨node, h1, h2⟩
    · exact Or.inl (hother id hid)

/-- C7 on the directory with nodes A, B and the edge A → B: a message that
the caller marked as coming from "x" reaches B marked as coming from A. -/
theorem send_stamps_provenance_witness :
    (∃ batch : List Message,
      List.Forall₂ (fun b m => b.FromNodeID = "A" ∧ b.Role = m.Role ∧ b.Content = m.Content ∧
        b.Name = m.Name ∧ b.Description = m.Description ∧ b.ToolCallID = m.ToolCallID ∧
        b.ToolCalls = m.ToolCalls) batch [userMsg "hi" "x"] ∧
      ∀ id, (send netAB "A" ["B"] [userMsg "hi" "x"] RangeOrder.reversed).net.nodes id =
          netAB.nodes id ∨
        ∃ node, netAB.nodes id = some node ∧
          (send netAB "A" ["B"] [userMsg "hi" "x"] RangeOrder.reversed).net.nodes id =
            some { node with InputChan := node.InputChan ++ [batch] }) ∧
    mailbox (send netAB "A" ["B"] [userMsg "hi" "x"] RangeOrder.reversed).net "B" =
      some [[userMsg "hi" "A"]] ∧
    (send netAB "A" ["B"] [userMsg "hi" "x"] RangeOrder.reversed).messages =
      [userMsg "hi" "A"] :=
  ⟨send_stamps_provenance netAB "A" ["B"] [userMsg "hi" "x"] RangeOrder.reversed,
    by decide, by decide⟩

/-- C8: for a registered fromID and empty toIDs, `send` fails with
"no target nodes available", delivers nothing and changes nothing when fromID
has no outgoing edge; when it has one and no registered neighbour's mailbox is
full, the resolved targets are exactly the registered outgoing neighbours, the
call succeeds, every registered outgoing neighbour gains exactly the stamped
batch at the tail of its mailbox and every other node is unchanged; on a
directory that satisfies the adjacency invariants every outgoing neighbour is
registered and gains the batch. -/
theorem send_broadcast (n : NetAgent) (f : String) (ms : List Message) (ρ : RangeOrder)
    (hreg : n.nodes f ≠ none) :
    ((∀ b, hasOut n f b = false) →
      send n f [] ms ρ = ⟨0, some (Errorf "no target nodes available" []), n, ms⟩) ∧
    ((∃ b, hasOut n f b = true) →
      (∀ b node, hasOut n f b = true → n.nodes b = some node →
        node.InputChan.length < chanCap) →
      (resolveTargets n f [] ρ).2 = none ∧
      (∀ id, id ∈ (resolveTargets n f [] ρ).1 ↔ n.nodes id ≠ none ∧ hasOut n f id = true) ∧
      (send n f [] ms ρ).err = none ∧
      (send n f [] ms ρ).delivered = (resolveTargets n f [] ρ).1.length ∧
      (∀ b node, hasOut n f b = true → n.nodes b = some node →
        (send n f [] ms ρ).net.nodes b =
          some { node with InputChan := node.InputChan ++ [stamp f ms] }) ∧
      (∀ b, hasOut n f b = false → (send n f [] ms ρ).net.nodes b = n.nodes b) ∧
      (AdjInv n → ∀ b, hasOut n f b = true → ∃ q, mailbox n b = some q ∧
        mailbox (send n f [] ms ρ).net b = some (q ++ [stamp f ms]))) := by
  constructor
  · intro h
    exact send_of_resolve_err n f [] ms ρ [] _ (resolveTargets_no_neighbour n f ρ hreg h)
  · intro hnb hroom
    have hok := resolveTargets_neighbour_ok n f ρ hreg hnb
    obtain ⟨_, _, hmem, _⟩ := resolveTargets_ok n f [] ρ hok
    simp only [if_true] at hmem
    obtain ⟨done, rest, hsplit, hcount, hdone, hother, _, _, _, _, _, hnil, hcons⟩ :=
      send_spec n f [] ms ρ hok
    have hrest : rest = [] := by
      cases rest with
      | nil => rfl
      | cons x rest1 =>
        obtain ⟨node, h1, h2, _⟩ := hcons x rest1 rfl
        have hx : x ∈ (resolveTargets n f [] ρ).1 := by
          rw [hsplit]; exact List.mem_append_right _ (List.mem_cons_self _ _)
        exact absurd (hroom x node ((hmem x).1 hx).2 h1) h2
    subst hrest
    rw [List.append_nil] at hsplit
    have hone : ∀ b node, hasOut n f b = true → n.nodes b = some node →
        (send n f [] ms ρ).net.nodes b =
          some { node with InputChan := node.InputChan ++ [stamp f ms] } := by
      intro b node hb hnode
      have hbd : b ∈ done := by
        rw [← hsplit, hmem b]
        exact ⟨by simp [hnode], hb⟩
      obtain ⟨nd, h1, _, h2⟩ := hdone b hbd
      rw [hnode] at h1
      cases h1
      exact h2
    refine ⟨hok, hmem, hnil rfl, by rw [hcount, hsplit], hone, ?_, ?_⟩
    · intro b hb
      apply hother
      intro hbd
      rw [← hsplit, hmem b, hb] at hbd
      simp at hbd
    · intro hinv b hb
      have hbreg := (hinv.member_out hb).2
      cases hnode : n.nodes b with
      | none => exact absurd hnode hbreg
      | some node =>
        refine ⟨node.InputChan, by simp [mailbox, hnode], ?_⟩
        simp [mailbox, hone b node hb hnode]

/-- C8 on the directory with nodes A, B and the edge A → B only:
`send("A", [], [msg])` puts the batch into the mailbox of B, and
`send("B", [], [msg])` fails with "no target nodes available". -/
theorem send_broadcast_witness :
    netAB.nodes "A" ≠ none ∧ netAB.nodes "B" ≠ none ∧
    (send netAB "A" [] [userMsg "hi" ""] RangeOrder.stored).err = none ∧
    (send netAB "A" [] [userMsg "hi" ""] RangeOrder.stored).delivered = 1 ∧
    mailbox (send netAB "A" [] [userMsg "hi" ""] RangeOrder.stored).net "B" =
      some [[userMsg "hi" "A"]] ∧
    mailbox (send netAB "A" [] [userMsg "hi" ""] RangeOrder.stored).net "A" = some [] ∧
    send netAB "B" [] [userMsg "hi" ""] RangeOrder.stored =
      ⟨0, some (Errorf "no target nodes available" []), netAB, [userMsg "hi" ""]⟩ := by
  have hA := (send_broadcast netAB "A" [userMsg "hi" ""] RangeOrder.stored (by decide)).2
    ⟨"B", by decide⟩
    (fun b node _ hnode => by rw [InputChan_run _ b node hnode]; decide)
  have hB := (send_broadcast netAB "B" [userMsg "hi" ""] RangeOrder.stored (by decide)).1
    (fun b => by
      have h : netAB.outEdges "B" = some StrSet.empty := by decide
      simp [hasOut, innerHas, h])
  exact ⟨by decide, by decide, hA.2.2.1, by decide, by decide, by decide, hB⟩

/-- C9 as stated fails on the directory with nodes A, B and the edge A → B:
the requested id "" has no edge from A, yet `send("A", ["", "B"], [msg])`
succeeds and delivers to B; and for the unregistered sender Z the requested
id B has no edge from Z, yet the error is the missing-node error. -/
theorem send_missing_edge_counterexample :
    ("" ∈ ["", "B"] ∧ hasOut netAB "A" "" = false ∧
      (send netAB "A" ["", "B"] [userMsg "hi" "x"] RangeOrder.stored).err = none ∧
      (send netAB "A" ["", "B"] [userMsg "hi" "x"] RangeOrder.stored).delivered = 1 ∧
      mailbox netAB "B" = some [] ∧
      mailbox (send netAB "A" ["", "B"] [userMsg "hi" "x"] RangeOrder.stored).net "B" =
        some [[userMsg "hi" "A"]]) ∧
    ("B" ∈ ["B"] ∧ hasOut netAB "Z" "B" = false ∧
      (send netAB "Z" ["B"] [userMsg "hi" "x"] RangeOrder.stored).err =
        some (Errorf "from node %q not found" ["Z"])) := by
  decide

/-- C9, amended: when fromID is registered and some non-empty requested id has
no edge from fromID, `send` fails with the missing-edge error for fromID and
such an id, returns delivered = 0 and leaves the directory, every mailbox and
the caller's messages as they were, whatever other ids are requested; when
fromID is not registered it fails with the missing-node error, again with
delivered = 0 and nothing changed. -/
theorem send_missing_edge (n : NetAgent) (f : String) (tos : List String)
    (ms : List Message) (ρ : RangeOrder)
    (h : ∃ id ∈ tos, id ≠ "" ∧ hasOut n f id = false) :
    (n.nodes f ≠ none →
      ∃ id ∈ tos, id ≠ "" ∧ hasOut n f id = false ∧
        send n f tos ms ρ = ⟨0, some (Errorf "no edge from %q to %q" [f, id]), n, ms⟩) ∧
    (n.nodes f = none →
      send n f tos ms ρ = ⟨0, some (Errorf "from node %q not found" [f]), n, ms⟩) := by
  constructor
  · intro hreg
    obtain ⟨id, hid, hne, hno, hres⟩ := resolveTargets_missing_edge n f tos ρ hreg h
    exact ⟨id, hid, hne, hno, send_of_resolve_err n f tos ms ρ [] _ hres⟩
  · intro hreg
    exact send_of_resolve_err n f tos ms ρ [] _ (resolveTargets_unregistered n f tos ρ hreg)

/-- C9, amended, on the directory with nodes A, B and the edge A → B:
`send("A", ["B", "Z"], [msg])` fails for the missing edge A → Z and B, which
has an edge, receives nothing. -/
theorem send_missing_edge_witness :
    (∃ id ∈ ["B", "Z"], id ≠ "" ∧ hasOut netAB "A" id = false) ∧
    netAB.nodes "A" ≠ none ∧
    (∃ id ∈ ["B", "Z"], id ≠ "" ∧ hasOut netAB "A" id = false ∧
      send netAB "A" ["B", "Z"] [userMsg "hi" "x"] RangeOrder.stored =
        ⟨0, some (Errorf "no edge from %q to %q" ["A", id]), netAB, [userMsg "hi" "x"]⟩) ∧
    (send netAB "A" ["B", "Z"] [userMsg "hi" "x"] RangeOrder.stored).err =
      some (Errorf "no edge from %q to %q" ["A", "Z"]) ∧
    mailbox (send netAB "A" ["B", "Z"] [userMsg "hi" "x"] RangeOrder.stored).net "B" =
      some [] :=
  ⟨⟨"Z", by decide, by decide, by decide⟩, by decide,
    (send_missing_edge netAB "A" ["B", "Z"] [userMsg "hi" "x"] RangeOrder.stored
      ⟨"Z", by decide, by decide, by decide⟩).1 (by decide),
    by decide, by decide⟩

/-- The delivered count of `send` on message lists, that is for a caller's
slice that shares no array with a queued batch (`sendShared_refines`): when
the targets of a `send` call are resolved, the targets are the
registered ids of the resolved set, each once; the call enqueues the stamped
batch at the tail of the mailboxes of a prefix `done` of the targets, one
batch each, and leaves every other node as it was; the returned count is the
length of `done`, the mailboxes that changed are exactly those of `done`;
without an error `done` is the whole target list, and with an error the call
stopped at a target whose mailbox is at capacity. -/
theorem send_delivered_count (n : NetAgent) (f : String) (tos : List String)
    (ms : List Message) (ρ : RangeOrder) (h : (resolveTargets n f tos ρ).2 = none) :
    ∃ done rest, (resolveTargets n f tos ρ).1 = done ++ rest ∧ (done ++ rest).Nodup ∧
      (∀ id, id ∈ done ++ rest ↔
        n.nodes id ≠ none ∧ (if tos = [] then hasOut n f id = true else id ∈ tos ∧ id ≠ "")) ∧
      (send n f tos ms ρ).delivered = done.length ∧
      (∀ id, id ∈ done ↔ mailbox (send n f tos ms ρ).net id ≠ mailbox n id) ∧
      (∀ id ∈ done, ∃ node, n.nodes id = some node ∧
        (send n f tos ms ρ).net.nodes id =
          some { node with InputChan := node.InputChan ++ [stamp f ms] }) ∧
      (∀ id, id ∉ done → (send n f tos ms ρ).net.nodes id = n.nodes id) ∧
      ((send n f tos ms ρ).err = none →
        rest = [] ∧ (send n f tos ms ρ).delivered = (resolveTargets n f tos ρ).1.length) ∧
      ((send n f tos ms ρ).err ≠ none →
        ∃ id rest1 node, rest = id :: rest1 ∧ n.nodes id = some node ∧
          chanCap ≤ node.InputChan.length ∧
          (send n f tos ms ρ).err =
            some (Errorf "input channel full for node %q" [node.ID])) := by
  obtain ⟨_, hnd, hmem, _⟩ := resolveTargets_ok n f tos ρ h
  obtain ⟨done, rest, hsplit, hcount, hdone, hother, _, _, _, _, _, hnil, hcons⟩ :=
    send_spec n f tos ms ρ h
  refine ⟨done, rest, hsplit, hsplit ▸ hnd, ?_, hcount, ?_, ?_, hother, ?_, ?_⟩
  · intro id
    rw [← hsplit]
    exact hmem id
  · intro id
    constructor
    · intro hid
      obtain ⟨node, h1, _, h2⟩ := hdone id hid
      simp only [mailbox, h1, h2, enqueue, Option.map_some', ne_eq, Option.some.injEq]
      intro heq
      have := congrArg List.length heq
      simp at this
    · intro hne
      by_contra hid
      exact hne (by simp only [mailbox, hother id hid])
  · intro id hid
    obtain ⟨node, h1, _, h2⟩ := hdone id hid
    exact ⟨node, h1, h2⟩
  · intro herr
    have hrest : rest = [] := by
      cases rest with
      | nil => rfl
      | cons x rest1 =>
        obtain ⟨node, _, _, h3⟩ := hcons x rest1 rfl
        rw [herr] at h3
        exact absurd h3 (by simp)
    refine ⟨hrest, ?_⟩
    rw [hcount, hsplit, hrest, List.append_nil]
  · intro herr
    cases rest with
    | nil => exact absurd (hnil rfl) herr
    | cons x rest1 =>
      obtain ⟨node, h1, h2, h3⟩ := hcons x rest1 rfl
      exact ⟨x, rest1, node, rfl, h1, Nat.le_of_not_lt h2, h3⟩

/-- The delivered count of `send` on message lists, on the directory with
nodes A, B and the edge A → B:
`send("A", ["B", "B"], [msg])` resolves the single target B and B gains one
batch; once the mailbox of B holds ten batches the same call returns
delivered = 0 with the channel-full error and the mailbox keeps ten batches. -/
theorem send_delivered_count_witness :
    (resolveTargets netAB "A" ["B", "B"] RangeOrder.stored).2 = none ∧
    (∃ done rest, (resolveTargets netAB "A" ["B", "B"] RangeOrder.stored).1 = done ++ rest ∧
      (done ++ rest).Nodup ∧
      (∀ id, id ∈ done ++ rest ↔
        netAB.nodes id ≠ none ∧
          (if ["B", "B"] = [] then hasOut netAB "A" id = true else id ∈ ["B", "B"] ∧ id ≠ "")) ∧
      (send netAB "A" ["B", "B"] [userMsg "hi" "x"] RangeOrder.stored).delivered = done.length ∧
      (∀ id, id ∈ done ↔
        mailbox (send netAB "A" ["B", "B"] [userMsg "hi" "x"] RangeOrder.stored).net id ≠
          mailbox netAB id) ∧
      (∀ id ∈ done, ∃ node, netAB.nodes id = some node ∧
        (send netAB "A" ["B", "B"] [userMsg "hi" "x"] RangeOrder.stored).net.nodes id =
          some { node with InputChan := node.InputChan ++ [stamp "A" [userMsg "hi" "x"]] }) ∧
      (∀ id, id ∉ done →
        (send netAB "A" ["B", "B"] [userMsg "hi" "x"] RangeOrder.stored).net.nodes id =
          netAB.nodes id) ∧
      ((send netAB "A" ["B", "B"] [userMsg "hi" "x"] RangeOrder.stored).err = none →
        rest = [] ∧
        (send netAB "A" ["B", "B"] [userMsg "hi" "x"] RangeOrder.stored).delivered =
          (resolveTargets netAB "A" ["B", "B"] RangeOrder.stored).1.length) ∧
      ((send netAB "A" ["B", "B"] [userMsg "hi" "x"] RangeOrder.stored).err ≠ none →
        ∃ id rest1 node, rest = id :: rest1 ∧ netAB.nodes id = some node ∧
          chanCap ≤ node.InputChan.length ∧
          (send netAB "A" ["B", "B"] [userMsg "hi" "x"] RangeOrder.stored).err =
            some (Errorf "input channel full for node %q" [node.ID]))) ∧
    (resolveTargets netAB "A" ["B", "B"] RangeOrder.stored).1 = ["B"] ∧
    (send netAB "A" ["B", "B"] [userMsg "hi" "x"] RangeOrder.stored).delivered = 1 ∧
    (send netAB "A" ["B", "B"] [userMsg "hi" "x"] RangeOrder.stored).err = none ∧
    mailbox (send netAB "A" ["B", "B"] [userMsg "hi" "x"] RangeOrder.stored).net "B" =
      some [[userMsg "hi" "A"]] ∧
    (mailbox netABfull "B").map List.length = some 10 ∧
    (send netABfull "A" ["B", "B"] [userMsg "hi" "x"] RangeOrder.stored).delivered = 0 ∧
    (send netABfull "A" ["B", "B"] [userMsg "hi" "x"] RangeOrder.stored).err =
      some (Errorf "input channel full for node %q" ["B"]) ∧
    (mailbox (send netABfull "A" ["B", "B"] [userMsg "hi" "x"] RangeOrder.stored).net "B").map
      List.length = some 10 :=
  ⟨by decide,
    send_delivered_count netAB "A" ["B", "B"] [userMsg "hi" "x"] RangeOrder.stored (by decide),
    by decide, by decide, by decide, by decide, by decide, by decide, by decide, by decide⟩

/-! ## Lemmas on the string functions -/

/-- A string trims to the empty string exactly when all its characters are
white space. -/
theorem TrimSpace_eq_empty_iff (s : String) :
    TrimSpace s = "" ↔ ∀ c ∈ s.data, isSpace c = true := by
  have h1 : TrimSpace s = "" ↔
      ((s.data.dropWhile isSpace).reverse.dropWhile isSpace).reverse = [] := by
    unfold TrimSpace
    constructor
    · intro h
      have := congrArg String.data h
      simpa using this
    · intro h
      rw [h]
  rw [h1, List.reverse_eq_nil_iff, List.dropWhile_eq_nil_iff]
  constructor
  · intro h
    have hnil : s.data.dropWhile isSpace = [] := by
      cases hd : s.data.dropWhile isSpace with
      | nil => rfl
      | cons x xs =>
        have hx : isSpace x = true := h x (by rw [hd]; simp)
        have hne : s.data.dropWhile isSpace ≠ [] := by rw [hd]; simp
        have hnot := List.head_dropWhile_not isSpace s.data hne
        simp only [hd, List.head_cons] at hnot
        rw [hx] at hnot
        exact absurd hnot (by simp)
    exact List.dropWhile_eq_nil_iff.1 hnil
  · intro h c hc
    rw [List.mem_reverse] at hc
    exact h c ((List.dropWhile_suffix isSpace).subset hc)

theorem TrimSpace_empty : TrimSpace "" = "" := by decide

theorem ne_empty_of_TrimSpace_ne (s : String) (h : TrimSpace s ≠ "") : s ≠ "" := by
  rintro rfl
  exact h TrimSpace_empty

/-- The test `hasInfix` decides whether the first list occurs within the second. -/
theorem hasInfix_iff (sub l : List Char) : hasInfix sub l = true ↔ sub <:+: l := by
  induction l with
  | nil =>
    simp [hasInfix, List.isEmpty_iff]
  | cons c l ih =>
    rw [hasInfix, Bool.or_eq_true, ih, List.isPrefixOf_iff_prefix, List.infix_cons_iff]

theorem Contains_iff (s substr : String) :
    Contains s substr = true ↔ substr.data <:+: s.data :=
  hasInfix_iff _ _

/-! ## Lemmas on `latestContent` -/

theorem latestContentFrom_blank (msgs : List Message) (k : Nat)
    (h : ∀ j m, j < k → msgs.get? j = some m → TrimSpace m.Content = "") :
    latestContentFrom msgs k = "" := by
  induction k with
  | zero => rfl
  | succ k ih =>
    have ih1 := ih (fun j m hj => h j m (Nat.lt_succ_of_lt hj))
    unfold latestContentFrom
    cases hk : msgs.get? k with
    | none => exact ih1
    | some m =>
      simp only [h k m (Nat.lt_succ_self k) hk, ne_eq, not_true_eq_false, if_false]
      exact ih1

theorem latestContentFrom_last (msgs : List Message) (k i : Nat) (m : Message)
    (hik : i < k) (hm : msgs.get? i = some m) (hnb : TrimSpace m.Content ≠ "")
    (h : ∀ j m2, i < j → j < k → msgs.get? j = some m2 → TrimSpace m2.Content = "") :
    latestContentFrom msgs k = m.Content := by
  induction k with
  | zero => exact absurd hik (Nat.not_lt_zero i)
  | succ k ih =>
    unfold latestContentFrom
    by_cases hik2 : i = k
    · subst hik2
      rw [hm]
      simp only [ne_eq, hnb, not_false_eq_true, if_true]
    · have hlt : i < k := by omega
      have ih1 := ih hlt (fun j m2 h1 h2 => h j m2 h1 (Nat.lt_succ_of_lt h2))
      cases hk : msgs.get? k with
      | none => exact ih1
      | some mk =>
        simp only [h k mk hlt (Nat.lt_succ_self k) hk, ne_eq, not_true_eq_false, if_false]
        exact ih1

theorem latestContentFrom_eq_empty (msgs : List Message) (k : Nat)
    (h : latestContentFrom msgs k = "") :
    ∀ j m, j < k → msgs.get? j = some m → TrimSpace m.Content = "" := by
  induction k with
  | zero => intro j m hj; exact absurd hj (Nat.not_lt_zero j)
  | succ k ih =>
    unfold latestContentFrom at h
    intro j m hj hm
    cases hk : msgs.get? k with
    | none =>
      rw [hk] at h
      have hjk : j ≠ k := by
        rintro rfl
        rw [hk] at hm
        exact absurd hm (by simp)
      exact ih h j m (by omega) hm
    | some mk =>
      rw [hk] at h
      simp only at h
      by_cases hb : TrimSpace mk.Content = ""
      · simp only [hb, ne_eq, not_true_eq_false, if_false] at h
        by_cases hjk : j = k
        · subst hjk
          rw [hk] at hm
          cases hm
          exact hb
        · exact ih h j m (by omega) hm
      · simp only [ne_eq, hb, not_false_eq_true, if_true] at h
        exact absurd h (ne_empty_of_TrimSpace_ne _ hb)

/-! ## Claims on the router protocol -/

/-- C13: `defaultRoute` returns stop = true with no targets and no messages
when reply is blank (every character is white space, the empty string
included); otherwise it returns stop = false, no targets and the single message
with role "user", content reply and provenance selfID; the result is the same
for every replyToID and input. -/
theorem defaultRoute_contract (selfID replyToID : String) (input : List Message)
    (reply : String) :
    ((∀ c ∈ reply.data, isSpace c = true) →
      defaultRoute selfID replyToID input reply = ([], [], true)) ∧
    (¬ (∀ c ∈ reply.data, isSpace c = true) →
      defaultRoute selfID replyToID input reply =
        ([], [{ Role := "user", Content := reply, Name := "", Description := "",
                ToolCallID := "", ToolCalls := [], FromNodeID := selfID }], false)) ∧
    (∀ replyToID2 input2,
      defaultRoute selfID replyToID2 input2 reply =
        defaultRoute selfID replyToID input reply) := by
  refine ⟨?_, ?_, fun _ _ => rfl⟩
  · intro h
    simp [defaultRoute, (TrimSpace_eq_empty_iff reply).2 h]
  · intro h
    have hne : TrimSpace reply ≠ "" := fun h0 => h ((TrimSpace_eq_empty_iff reply).1 h0)
    simp [defaultRoute, hne]

/-- C13 on Scenario 2 and on a reply of blanks and a reply with text. -/
theorem defaultRoute_contract_witness :
    defaultRoute "A" "B" [] "" = ([], [], true) ∧
    defaultRoute "A" "B" [] " \t\n" = ([], [], true) ∧
    defaultRoute "A" "B" [userMsg "x" "B"] " hello " = ([], [userMsg " hello " "A"], false) :=
  ⟨(defaultRoute_contract "A" "B" [] "").1 (by decide),
    (defaultRoute_contract "A" "B" [] " \t\n").1 (by decide),
    (defaultRoute_contract "A" "B" [userMsg "x" "B"] " hello ").2.1 (by decide)⟩

/-- C14: `SmartRouter` returns stop = true exactly when reply contains
"delivered to" or is blank, and then returns no targets and no messages;
otherwise, when replyToID is non-empty and differs from selfID, it returns
the target replyToID, the single message with role "user", content reply and
provenance selfID, and stop = false; otherwise it returns no targets, no
messages and stop = false. -/
theorem SmartRouter_contract (selfID replyToID : String) (input : List Message)
    (reply : String) :
    ((SmartRouter selfID replyToID input reply).2.2 = true ↔
      ("delivered to".data <:+: reply.data ∨ ∀ c ∈ reply.data, isSpace c = true)) ∧
    (("delivered to".data <:+: reply.data ∨ ∀ c ∈ reply.data, isSpace c = true) →
      SmartRouter selfID replyToID input reply = ([], [], true)) ∧
    (¬ ("delivered to".data <:+: reply.data ∨ ∀ c ∈ reply.data, isSpace c = true) →
      replyToID ≠ "" ∧ replyToID ≠ selfID →
      SmartRouter selfID replyToID input reply =
        ([replyToID], [{ Role := "user", Content := reply, Name := "", Description := "",
                         ToolCallID := "", ToolCalls := [], FromNodeID := selfID }], false)) ∧
    (¬ ("delivered to".data <:+: reply.data ∨ ∀ c ∈ reply.data, isSpace c = true) →
      ¬ (replyToID ≠ "" ∧ replyToID ≠ selfID) →
      SmartRouter selfID replyToID input reply = ([], [], false)) := by
  have hcond : (Contains reply "delivered to" = true ∨ TrimSpace reply = "") ↔
      ("delivered to".data <:+: reply.data ∨ ∀ c ∈ reply.data, isSpace c = true) := by
    rw [Contains_iff, TrimSpace_eq_empty_iff]
  by_cases hstop : Contains reply "delivered to" = true ∨ TrimSpace reply = ""
  · have h := hcond.1 hstop
    have heq : SmartRouter selfID replyToID input reply = ([], [], true) := by
      simp only [SmartRouter, hstop, if_true]
    refine ⟨?_, fun _ => heq, fun hn => absurd h hn, fun hn => absurd h hn⟩
    rw [heq]
    exact ⟨fun _ => h, fun _ => rfl⟩
  · have h : ¬ ("delivered to".data <:+: reply.data ∨ ∀ c ∈ reply.data, isSpace c = true) :=
      fun h => hstop (hcond.2 h)
    by_cases hto : replyToID ≠ "" ∧ replyToID ≠ selfID
    · have heq : SmartRouter selfID replyToID input reply =
          ([replyToID], [userMsg reply selfID], false) := by
        simp only [SmartRouter, hstop, if_false, userMsg]
        rw [if_pos hto]
      refine ⟨?_, fun h1 => absurd h1 h, fun _ _ => heq, fun _ hn => absurd hto hn⟩
      rw [heq]
      exact ⟨fun h1 => absurd h1 (by simp), fun h1 => absurd h1 h⟩
    · have heq : SmartRouter selfID replyToID input reply = ([], [], false) := by
        simp only [SmartRouter, hstop, if_false]
        rw [if_neg hto]
      refine ⟨?_, fun h1 => absurd h1 h, fun _ h1 => absurd h1 hto, fun _ _ => heq⟩
      rw [heq]
      exact ⟨fun h1 => absurd h1 (by simp), fun h1 => absurd h1 h⟩

/-- C14 on Scenario 3: selfID "A", replyToID "B" and reply "hello" give the
target B, one message with provenance A and stop = false; the reply of the
send tool and a blank reply stop. -/
theorem SmartRouter_contract_witness :
    SmartRouter "A" "B" [] "hello" = (["B"], [userMsg "hello" "A"], false) ∧
    SmartRouter "A" "B" [] "delivered to 1 node(s)" = ([], [], true) ∧
    SmartRouter "A" "B" [] "  " = ([], [], true) ∧
    SmartRouter "A" "" [] "hello" = ([], [], false) ∧
    SmartRouter "A" "A" [] "hello" = ([], [], false) :=
  ⟨(SmartRouter_contract "A" "B" [] "hello").2.2.1
      (by rw [← Contains_iff, ← TrimSpace_eq_empty_iff]; decide) (by decide),
    by decide, by decide, by decide, by decide⟩

/-- C18: `latestContent` returns, unmodified, the content of the message
with the greatest index whose content is not blank, and it returns the empty
string exactly when the content of every message of the batch is blank (all
characters white space), the empty batch included. -/
theorem latestContent_contract (msgs : List Message) :
    (∀ i m, msgs.get? i = some m → ¬ (∀ c ∈ m.Content.data, isSpace c = true) →
      (∀ j m2, i < j → msgs.get? j = some m2 → ∀ c ∈ m2.Content.data, isSpace c = true) →
      latestContent msgs = m.Content) ∧
    (latestContent msgs = "" ↔ ∀ m ∈ msgs, ∀ c ∈ m.Content.data, isSpace c = true) := by
  constructor
  · intro i m hm hnb hlater
    have hi : i < msgs.length := by
      by_contra hge
      rw [List.get?_eq_none.2 (Nat.le_of_not_lt hge)] at hm
      exact absurd hm (by simp)
    apply latestContentFrom_last msgs msgs.length i m hi hm
    · intro h0
      exact hnb ((TrimSpace_eq_empty_iff _).1 h0)
    · intro j m2 hij _ hm2
      exact (TrimSpace_eq_empty_iff _).2 (hlater j m2 hij hm2)
  · constructor
    · intro h m hmem
      obtain ⟨j, hj, hget⟩ := List.getElem_of_mem hmem
      have hget2 : msgs.get? j = some m := by
        rw [List.get?_eq_getElem?, List.getElem?_eq_getElem hj, hget]
      exact (TrimSpace_eq_empty_iff _).1
        (latestContentFrom_eq_empty msgs msgs.length h j m hj hget2)
    · intro h
      apply latestContentFrom_blank
      intro j m _ hm
      exact (TrimSpace_eq_empty_iff _).2 (h m (List.get?_mem hm))

/-- C18 on Scenario 5: the contents "", "hi", "" give "hi"; a batch of blank
contents and the empty batch give the empty string, and the content is
returned with its white space. -/
theorem latestContent_contract_witness :
    latestContent [userMsg "" "x", userMsg "hi" "x", userMsg "" "x"] = "hi" ∧
    latestContent [userMsg "" "x", userMsg " \n" "x"] = "" ∧
    latestContent [] = "" ∧
    latestContent [userMsg "old" "x", userMsg " hi " "x", userMsg "\t" "x"] = " hi " :=
  ⟨(latestContent_contract [userMsg "" "x", userMsg "hi" "x", userMsg "" "x"]).1 1
      (userMsg "hi" "x") (by decide) (by decide)
      (fun j m2 hj hm => by
        have hj2 : j = 2 := by
          by_contra hne
          have : 3 ≤ j := by omega
          rw [List.get?_eq_none.2 (by simpa using this)] at hm
          exact absurd hm (by simp)
        subst hj2
        simp only [List.get?, Option.some.injEq] at hm
        subst hm
        decide),
    by decide, by decide, by decide⟩

/-- What `route` returns for the policy in force and its result. -/
theorem route_of_policy (n : NetAgent) (policy : RouteFunc) (selfID replyToID : String)
    (input : List Message) (reply : String) (ρ : RangeOrder)
    (ids : List String) (msgs : List Message) (stop : Bool)
    (hp : n.router = some policy ∨ (n.router = none ∧ policy = defaultRoute))
    (hres : policy selfID replyToID input reply = (ids, msgs, stop)) :
    route n selfID replyToID input reply ρ =
      if stop = true ∨ ids.length > 0 then (ids, msgs, stop)
      else if (ids ++ rangeKeys ρ 0 n.outEdges selfID).length = 0 then ([], msgs, true)
      else (ids ++ rangeKeys ρ 0 n.outEdges selfID, msgs, false) := by
  unfold route
  rcases hp with hp | ⟨hp, rfl⟩
  · simp only [hp, hres]
  · simp only [hp, hres]

/-- C15: `route` calls the policy in force, which is the Default policy when
none is set; when the policy stops or names targets its result is returned
as it is; otherwise, when selfID has an outgoing edge, `route` returns
stop = false, the messages of the policy and as targets the outgoing
neighbours of selfID, each once; otherwise it returns stop = true, no targets
and the messages of the policy. -/
theorem route_contract (n : NetAgent) (selfID replyToID : String) (input : List Message)
    (reply : String) (ρ : RangeOrder) :
    (n.router = none →
      route n selfID replyToID input reply ρ =
        route (SetRouter n (some defaultRoute)) selfID replyToID input reply ρ) ∧
    (∀ policy : RouteFunc, n.router = some policy →
      ((policy selfID replyToID input reply).2.2 = true ∨
          (policy selfID replyToID input reply).1 ≠ [] →
        route n selfID replyToID input reply ρ = policy selfID replyToID input reply) ∧
      ((policy selfID replyToID input reply).2.2 = false →
        (policy selfID replyToID input reply).1 = [] →
        (∃ b, hasOut n selfID b = true) →
        (route n selfID replyToID input reply ρ).2.2 = false ∧
        (route n selfID replyToID input reply ρ).2.1 =
          (policy selfID replyToID input reply).2.1 ∧
        (route n selfID replyToID input reply ρ).1.Nodup ∧
        ∀ b, b ∈ (route n selfID replyToID input reply ρ).1 ↔ hasOut n selfID b = true) ∧
      ((policy selfID replyToID input reply).2.2 = false →
        (policy selfID replyToID input reply).1 = [] →
        (∀ b, hasOut n selfID b = false) →
        route n selfID replyToID input reply ρ =
          ([], (policy selfID replyToID input reply).2.1, true))) := by
  constructor
  · intro h
    rw [route_of_policy n defaultRoute selfID replyToID input reply ρ _ _ _ (Or.inr ⟨h, rfl⟩) rfl,
      route_of_policy (SetRouter n (some defaultRoute)) defaultRoute selfID replyToID input
        reply ρ _ _ _ (Or.inl rfl) rfl]
    rfl
  · intro policy hp
    cases hres : policy selfID replyToID input reply with
    | mk ids rest =>
      cases rest with
      | mk msgs stop =>
        have hroute := route_of_policy n policy selfID replyToID input reply ρ ids msgs stop
          (Or.inl hp) hres
        refine ⟨?_, ?_, ?_⟩
        · intro h
          rw [hroute, if_pos]
          rcases h with h | h
          · exact Or.inl h
          · exact Or.inr (List.length_pos.2 h)
        · intro hstop hids hnb
          simp only at hstop hids
          subst hstop hids
          obtain ⟨b, hb⟩ := hnb
          have hb2 : b ∈ rangeKeys ρ 0 n.outEdges selfID := (mem_rangeKeys ρ 0 _ _ b).2 hb
          have hlen : ¬ ([] ++ rangeKeys ρ 0 n.outEdges selfID).length = 0 := by
            intro h0
            rw [List.nil_append, List.length_eq_zero] at h0
            rw [h0] at hb2
            simp at hb2
          rw [hroute, if_neg (by simp), if_neg hlen]
          refine ⟨rfl, rfl, ?_, ?_⟩
          · simpa using nodup_rangeKeys ρ 0 n.outEdges selfID
          · intro x
            simp only [List.nil_append]
            exact mem_rangeKeys ρ 0 n.outEdges selfID x
        · intro hstop hids hnb
          simp only at hstop hids
          subst hstop hids
          have hnil : rangeKeys ρ 0 n.outEdges selfID = [] := by
            rw [List.eq_nil_iff_forall_not_mem]
            intro x hx
            rw [mem_rangeKeys] at hx
            have hf := hnb x
            unfold hasOut at hf
            rw [hf] at hx
            exact absurd hx (by simp)
          rw [hroute, if_neg (by simp), hnil]
          rfl

/-- C15 on the directory with nodes A, B and the edge A → B and no policy
set: a reply of A is broadcast to B, a reply of B, which has no outgoing edge,
stops the turn, and a blank reply stops the turn. -/
theorem route_contract_witness :
    netAB.router = none ∧
    route netAB "A" "" [] "hello" RangeOrder.stored =
      route (SetRouter netAB (some defaultRoute)) "A" "" [] "hello" RangeOrder.stored ∧
    route netAB "A" "" [] "hello" RangeOrder.stored = (["B"], [userMsg "hello" "A"], false) ∧
    route netAB "B" "A" [] "hello" RangeOrder.stored = ([], [userMsg "hello" "B"], true) ∧
    route netAB "A" "" [] " " RangeOrder.stored = ([], [], true) ∧
    route netTest "A" "B" [] "hello" RangeOrder.stored = (["B"], [userMsg "hello" "A"], false) :=
  ⟨rfl, (route_contract netAB "A" "" [] "hello" RangeOrder.stored).1 rfl,
    by decide, by decide, by decide, by decide⟩

/-- C19: under the Smart policy, for a registered selfID, a reply that is not
blank and does not contain "delivered to", and a replyToID that is non-empty,
differs from selfID and has no edge from selfID, `route` returns the single
target replyToID with the wrapped reply and stop = false, whatever the
outgoing neighbours of selfID are; the following `send` to replyToID fails
with the missing-edge error, returns 0 and changes nothing. -/
theorem smart_reply_without_edge (n : NetAgent) (selfID replyToID : String)
    (input : List Message) (reply : String) (msgs : List Message) (ρ ρ2 : RangeOrder)
    (hr : n.router = some SmartRouter) (hreg : n.nodes selfID ≠ none)
    (hnb : ¬ ∀ c ∈ reply.data, isSpace c = true)
    (hmark : ¬ "delivered to".data <:+: reply.data)
    (h1 : replyToID ≠ "") (h2 : replyToID ≠ selfID)
    (h3 : hasOut n selfID replyToID = false) :
    route n selfID replyToID input reply ρ =
      ([replyToID], [{ Role := "user", Content := reply, Name := "", Description := "",
                       ToolCallID := "", ToolCalls := [], FromNodeID := selfID }], false) ∧
    send n selfID [replyToID] msgs ρ2 =
      ⟨0, some (Errorf "no edge from %q to %q" [selfID, replyToID]), n, msgs⟩ := by
  constructor
  · have hstop : ¬ (Contains reply "delivered to" = true ∨ TrimSpace reply = "") := by
      rw [Contains_iff, TrimSpace_eq_empty_iff]
      exact fun h => h.elim hmark hnb
    have hres : SmartRouter selfID replyToID input reply =
        ([replyToID], [userMsg reply selfID], false) := by
      simp only [SmartRouter, hstop, if_false, userMsg]
      rw [if_pos ⟨h1, h2⟩]
    rw [route_of_policy n SmartRouter selfID replyToID input reply ρ _ _ _ (Or.inl hr) hres]
    rfl
  · obtain ⟨id, hid, _, _, hres⟩ :=
      resolveTargets_missing_edge n selfID [replyToID] ρ2 hreg
        ⟨replyToID, List.mem_singleton.2 rfl, h1, h3⟩
    rw [List.mem_singleton] at hid
    subst hid
    exact send_of_resolve_err n selfID [id] msgs ρ2 [] _ hres

/-- C19 on the network of `TestCommunication`: the turn of A seeded from
outside with the sender id "seed" is routed to "seed" alone, and the send
fails, although A has the outgoing neighbours B and C. -/
theorem smart_reply_without_edge_witness :
    hasOut netTest "A" "B" = true ∧ hasOut netTest "A" "C" = true ∧
    route netTest "A" "seed" [userMsg "start" "seed"] "A_ACK: start" RangeOrder.stored =
      (["seed"], [userMsg "A_ACK: start" "A"], false) ∧
    send netTest "A" ["seed"] [userMsg "A_ACK: start" "A"] RangeOrder.stored =
      ⟨0, some (Errorf "no edge from %q to %q" ["A", "seed"]), netTest,
        [userMsg "A_ACK: start" "A"]⟩ :=
  ⟨by decide, by decide,
    smart_reply_without_edge netTest "A" "seed" [userMsg "start" "seed"] "A_ACK: start"
      [userMsg "A_ACK: start" "A"] RangeOrder.stored RangeOrder.stored rfl (by decide)
      (by rw [← TrimSpace_eq_empty_iff]; decide) (by rw [← Contains_iff]; decide)
      (by decide) (by decide) (by decide)⟩

/-! ## Claims on a full target, and the capacity on message lists -/

theorem perm_pair {b c : String} {l : List String} (h : l.Perm [b, c]) :
    l = [b, c] ∨ l = [c, b] := by
  obtain ⟨x, y, rfl⟩ := List.length_eq_two.1 h.length_eq
  have hx : x ∈ [b, c] := h.subset (List.mem_cons_self _ _)
  have hy : y ∈ [b, c] := h.subset (List.mem_cons_of_mem _ (List.mem_cons_self _ _))
  have hb : b ∈ [x, y] := h.symm.subset (List.mem_cons_self _ _)
  have hc : c ∈ [x, y] := h.symm.subset (List.mem_cons_of_mem _ (List.mem_cons_self _ _))
  simp only [List.mem_cons, List.mem_singleton, List.not_mem_nil, or_false] at hx hy hb hc
  rcases hx with rfl | rfl <;> rcases hy with rfl | rfl
  · rcases hc with rfl | rfl <;> exact Or.inl rfl
  · exact Or.inl rfl
  · exact Or.inr rfl
  · rcases hb with rfl | rfl <;> exact Or.inl rfl

/-- The targets resolved for two distinct non-empty requested ids that both
have an edge from a registered sender. -/
theorem resolveTargets_pair (n : NetAgent) (a b c : String) (ρ : RangeOrder)
    (ha : n.nodes a ≠ none) (hab : hasOut n a b = true) (hac : hasOut n a c = true)
    (hbc : b ≠ c) (hb0 : b ≠ "") (hc0 : c ≠ "") :
    resolveTargets n a [b, c] ρ =
      ((ρ.visit 1 [b, c]).filter (fun id => (n.nodes id).isSome), none) := by
  have hcb : ¬ c = b := fun h => hbc h.symm
  have hts : targetSet n a [b, c] ρ = (⟨[b, c], by simp [hbc]⟩, none) := by
    simp [targetSet, collectTargets, hb0, hc0, hab, hac, StrSet.add, StrSet.empty, hcb]
  unfold resolveTargets
  cases hna : n.nodes a with
  | none => exact absurd hna ha
  | some na => simp [hts]

/-- C11 as stated fails on the directory with the edges A → B and A → C, the
mailbox of C at capacity and the mailbox of B empty: when the range loop over
the target set visits C before B, `send("A", ["B", "C"], [msg])` returns
delivered = 0 and B receives nothing; when it visits B first the call returns
delivered = 1. -/
theorem send_full_target_counterexample :
    hasOut netABCfull "A" "B" = true ∧ hasOut netABCfull "A" "C" = true ∧
    (mailbox netABCfull "C").map List.length = some chanCap ∧
    mailbox netABCfull "B" = some [] ∧
    (send netABCfull "A" ["B", "C"] [userMsg "hi" ""] RangeOrder.reversed).delivered = 0 ∧
    (send netABCfull "A" ["B", "C"] [userMsg "hi" ""] RangeOrder.reversed).err =
      some (Errorf "input channel full for node %q" ["C"]) ∧
    mailbox (send netABCfull "A" ["B", "C"] [userMsg "hi" ""] RangeOrder.reversed).net "B" =
      some [] ∧
    (send netABCfull "A" ["B", "C"] [userMsg "hi" ""] RangeOrder.stored).delivered = 1 := by
  decide

/-- C11, amended: when the edges a → b and a → c exist for distinct non-empty
ids b and c, the mailbox of c is at capacity and the mailbox of b is empty,
`send(a, [b, c], msgs)` returns the channel-full error for the node of c and
leaves every node other than b, the node of c included, as it was; the range
loop over the target set visits b and c in one of the two orders; when it
visits b first the call returns delivered = 1 and the mailbox of b holds the
stamped batch; when it visits c first the call returns delivered = 0 and
nothing is changed. -/
theorem send_full_target (n : NetAgent) (a b c : String) (ms : List Message) (ρ : RangeOrder)
    (nb nc : AgentNode)
    (ha : n.nodes a ≠ none) (hab : hasOut n a b = true) (hac : hasOut n a c = true)
    (hb : n.nodes b = some nb) (hc : n.nodes c = some nc)
    (hbc : b ≠ c) (hb0 : b ≠ "") (hc0 : c ≠ "")
    (hempty : nb.InputChan = []) (hfull : nc.InputChan.length = chanCap) :
    (send n a [b, c] ms ρ).err =
      some (Errorf "input channel full for node %q" [nc.ID]) ∧
    (send n a [b, c] ms ρ).net.nodes c = some nc ∧
    (∀ k, k ≠ b → (send n a [b, c] ms ρ).net.nodes k = n.nodes k) ∧
    (ρ.visit 1 [b, c] = [b, c] ∨ ρ.visit 1 [b, c] = [c, b]) ∧
    (ρ.visit 1 [b, c] = [b, c] →
      (send n a [b, c] ms ρ).delivered = 1 ∧
      mailbox (send n a [b, c] ms ρ).net b = some [stamp a ms]) ∧
    (ρ.visit 1 [b, c] = [c, b] →
      (send n a [b, c] ms ρ).delivered = 0 ∧
      (send n a [b, c] ms ρ).net = n) := by
  have hcb : c ≠ b := fun h => hbc h.symm
  have hres := resolveTargets_pair n a b c ρ ha hab hac hbc hb0 hc0
  have hok : (resolveTargets n a [b, c] ρ).2 = none := by rw [hres]
  have hsend := send_of_resolve_ok n a [b, c] ms ρ hok
  have hnofull : ¬ nc.InputChan.length < chanCap := by omega
  have hroom : nb.InputChan.length < chanCap := by rw [hempty]; decide
  have hcase := perm_pair (ρ.perm 1 [b, c])
  have h1 : ρ.visit 1 [b, c] = [b, c] →
      send n a [b, c] ms ρ =
        ⟨1, some (Errorf "input channel full for node %q" [nc.ID]),
          { n with nodes := n.nodes.put b (enqueue nb (stamp a ms)) }, stamp a ms⟩ := by
    intro hv
    rw [hsend, hres, hv]
    simp [deliver, hb, hc, hroom, hnofull, hcb]
  have h2 : ρ.visit 1 [b, c] = [c, b] →
      send n a [b, c] ms ρ =
        ⟨0, some (Errorf "input channel full for node %q" [nc.ID]), n, stamp a ms⟩ := by
    intro hv
    rw [hsend, hres, hv]
    simp [deliver, hb, hc, hnofull]
  refine ⟨?_, ?_, ?_, hcase, ?_, ?_⟩
  · rcases hcase with hv | hv
    · rw [h1 hv]
    · rw [h2 hv]
  · rcases hcase with hv | hv
    · rw [h1 hv]; simp [hcb, hc]
    · rw [h2 hv]; exact hc
  · intro k hk
    rcases hcase with hv | hv
    · rw [h1 hv]; simp [hk]
    · rw [h2 hv]
  · intro hv
    rw [h1 hv]
    simp [mailbox, enqueue, hempty]
  · intro hv
    rw [h2 hv]
    exact ⟨rfl, rfl⟩

/-- C11, amended, on the directory with the edges A → B and A → C and the
mailbox of C at capacity, for the range order that visits B first. -/
theorem send_full_target_witness :
    (send netABCfull "A" ["B", "C"] [userMsg "hi" ""] RangeOrder.stored).err =
      some (Errorf "input channel full for node %q" ["C"]) ∧
    (send netABCfull "A" ["B", "C"] [userMsg "hi" ""] RangeOrder.stored).delivered = 1 ∧
    mailbox (send netABCfull "A" ["B", "C"] [userMsg "hi" ""] RangeOrder.stored).net "B" =
      some [[userMsg "hi" "A"]] ∧
    (mailbox (send netABCfull "A" ["B", "C"] [userMsg "hi" ""] RangeOrder.stored).net "C").map
      List.length = some 10 := by
  have hB : netABCfull.nodes "B" = some ⟨"B", 2, [], []⟩ := by decide
  obtain ⟨nc, hC, hID, hlen⟩ : ∃ nc, netABCfull.nodes "C" = some nc ∧ nc.ID = "C" ∧
      nc.InputChan.length = chanCap := by
    cases h : netABCfull.nodes "C" with
    | none => exact absurd h (by decide)
    | some nc =>
      refine ⟨nc, rfl, ?_, ?_⟩
      · have : (netABCfull.nodes "C").map (fun x => x.ID) = some "C" := by decide
        simpa [h] using this
      · have : (netABCfull.nodes "C").map (fun x => x.InputChan.length) = some chanCap := by
          decide
        simpa [h] using this
  have h := send_full_target netABCfull "A" "B" "C" [userMsg "hi" ""] RangeOrder.stored
    ⟨"B", 2, [], []⟩ nc (by decide) (by decide) (by decide) hB hC (by decide) (by decide)
    (by decide) rfl hlen
  refine ⟨?_, (h.2.2.2.2.1 rfl).1, ?_, by decide⟩
  · rw [h.1, hID]
  · rw [(h.2.2.2.2.1 rfl).2]
    rfl

/-- The capacity of a mailbox for `send` on message lists, that is for a
caller's slice that shares no array with a queued batch
(`sendShared_refines`): the capacity is 10; a `send` call whose targets are
resolved returns without error exactly when no resolved target has its
mailbox at capacity at the start of the call; a node whose mailbox is at
capacity is left as it was by every `send` call; and when no mailbox holds
more than the capacity before a `send` call, none does after it. -/
theorem send_capacity (n : NetAgent) (f : String) (tos : List String) (ms : List Message)
    (ρ : RangeOrder) :
    chanCap = 10 ∧
    ((resolveTargets n f tos ρ).2 = none →
      ((send n f tos ms ρ).err = none ↔
        ∀ id ∈ (resolveTargets n f tos ρ).1, ∀ node, n.nodes id = some node →
          node.InputChan.length < chanCap)) ∧
    (∀ id node, n.nodes id = some node → chanCap ≤ node.InputChan.length →
      (send n f tos ms ρ).net.nodes id = some node) ∧
    ((∀ id node, n.nodes id = some node → node.InputChan.length ≤ chanCap) →
      ∀ id node, (send n f tos ms ρ).net.nodes id = some node →
        node.InputChan.length ≤ chanCap) := by
  refine ⟨rfl, ?_, ?_, ?_⟩
  · intro hok
    obtain ⟨done, rest, hsplit, _, hdone, _, _, _, _, _, _, hnil, hcons⟩ :=
      send_spec n f tos ms ρ hok
    constructor
    · intro herr id hid node hnode
      have hrest : rest = [] := by
        cases rest with
        | nil => rfl
        | cons x rest1 =>
          obtain ⟨_, _, _, h3⟩ := hcons x rest1 rfl
          rw [herr] at h3
          exact absurd h3 (by simp)
      rw [hsplit, hrest, List.append_nil] at hid
      obtain ⟨nd, h1, h2, _⟩ := hdone id hid
      rw [hnode] at h1
      cases h1
      exact h2
    · intro hall
      apply hnil
      cases rest with
      | nil => rfl
      | cons x rest1 =>
        obtain ⟨nd, h1, h2, _⟩ := hcons x rest1 rfl
        have hx : x ∈ (resolveTargets n f tos ρ).1 := by
          rw [hsplit]; exact List.mem_append_right _ (List.mem_cons_self _ _)
        exact absurd (hall x hx nd h1) h2
  · intro id node hnode hfull
    cases herr : (resolveTargets n f tos ρ).2 with
    | some e =>
      rw [send_of_resolve_err n f tos ms ρ (resolveTargets n f tos ρ).1 e (by rw [← herr])]
      exact hnode
    | none =>
      obtain ⟨done, rest, _, _, hdone, hother, _⟩ := send_spec n f tos ms ρ herr
      by_cases hid : id ∈ done
      · obtain ⟨nd, h1, h2, _⟩ := hdone id hid
        rw [hnode] at h1
        cases h1
        omega
      · rw [hother id hid]; exact hnode
  · intro hcap id node hnode
    cases herr : (resolveTargets n f tos ρ).2 with
    | some e =>
      rw [send_of_resolve_err n f tos ms ρ (resolveTargets n f tos ρ).1 e (by rw [← herr])]
        at hnode
      exact hcap id node hnode
    | none =>
      obtain ⟨done, rest, _, _, hdone, hother, _⟩ := send_spec n f tos ms ρ herr
      by_cases hid : id ∈ done
      · obtain ⟨nd, _, h2, h3⟩ := hdone id hid
        rw [hnode] at h3
        cases h3
        simp only [enqueue, List.length_append, List.length_singleton]
        omega
      · rw [hother id hid] at hnode
        exact hcap id node hnode

/-- The capacity of a mailbox for `send` on message lists, on the directory
with nodes A, B and the edge A → B after ten sends to B: the eleventh send
returns the channel-full error and the mailbox of B keeps its ten batches. -/
theorem send_capacity_witness :
    (resolveTargets netABfull "A" ["B"] RangeOrder.stored).2 = none ∧
    (mailbox netABfull "B").map List.length = some 10 ∧
    (send netABfull "A" ["B"] [userMsg "late" ""] RangeOrder.stored).err =
      some (Errorf "input channel full for node %q" ["B"]) ∧
    mailbox (send netABfull "A" ["B"] [userMsg "late" ""] RangeOrder.stored).net "B" =
      mailbox netABfull "B" ∧
    ((send netAB "A" ["B"] [userMsg "hi" ""] RangeOrder.stored).err = none ↔
      ∀ id ∈ (resolveTargets netAB "A" ["B"] RangeOrder.stored).1, ∀ node,
        netAB.nodes id = some node → node.InputChan.length < chanCap) :=
  ⟨by decide, by decide, by decide, by decide,
    (send_capacity netAB "A" ["B"] [userMsg "hi" ""] RangeOrder.stored).2.1 (by decide)⟩

/-! ## Claims on the pull path and on the validation of the message set -/

/-- What the drain loop of `recv` does: it takes a prefix `taken` of the queued
batches, whole, and appends their messages in queue order; it leaves the
other batches queued; it stops before a batch only when the results have
reached `max`, and it took its last batch while the results were below `max`. -/
theorem drain_spec (max : Int) (queue : List (List Message)) (results : List Message) :
    ∃ taken left, queue = taken ++ left ∧
      (drain max queue results).1 = results ++ taken.flatten ∧
      (drain max queue results).2 = left ∧
      (left ≠ [] → max ≤ ((drain max queue results).1.length : Int)) ∧
      (∀ pre x, taken = pre ++ [x] → ((results ++ pre.flatten).length : Int) < max) := by
  induction queue generalizing results with
  | nil =>
    refine ⟨[], [], rfl, by simp [drain], rfl, fun h => absurd rfl h, ?_⟩
    intro pre x h
    exact absurd h (by simp)
  | cons next rest ih =>
    by_cases hlt : (results.length : Int) < max
    · obtain ⟨taken, left, h1, h2, h3, h4, h5⟩ := ih (results ++ next)
      refine ⟨next :: taken, left, by rw [h1]; rfl, ?_, ?_, ?_, ?_⟩
      · simp only [drain, hlt, if_true, h2, List.flatten_cons, List.append_assoc]
      · simp only [drain, hlt, if_true, h3]
      · intro hl
        simpa only [drain, hlt, if_true] using h4 hl
      · intro pre x hpre
        cases pre with
        | nil => simpa using hlt
        | cons p pre1 =>
          obtain ⟨rfl, ht⟩ := List.cons.inj hpre
          have := h5 pre1 x ht
          simpa only [List.flatten_cons, List.append_assoc] using this
    · refine ⟨[], next :: rest, rfl, ?_, ?_, ?_, ?_⟩
      · simp [drain, hlt]
      · simp [drain, hlt]
      · intro _
        simp only [drain, hlt, if_false]
        omega
      · intro pre x h
        exact absurd h (by simp)

/-- What `recv` does on a registered node for a `max` from 0 to
`maxMessageCap`: it
returns, in queue order, the messages of a prefix of the queued batches and
removes exactly those batches; the prefix holds the first batch when the
mailbox is not empty. The number of messages returned is not bounded by `max`. -/
theorem recv_spec (n : NetAgent) (nodeID : String) (max timeout : Int) (node : AgentNode)
    (hnode : n.nodes nodeID = some node) (hmax : 0 ≤ max) (hcap : max ≤ maxMessageCap) :
    ∃ taken left r, node.InputChan = taken ++ left ∧
      recv n nodeID max timeout = some r ∧
      r.msgs = taken.flatten ∧ r.err = none ∧
      (node.InputChan ≠ [] → taken ≠ []) ∧
      (left ≠ [] → max ≤ (r.msgs.length : Int)) ∧
      (∀ pre x, taken = pre ++ [x] → pre ≠ [] → (pre.flatten.length : Int) < max) ∧
      (∀ k, k ≠ nodeID → r.net.nodes k = n.nodes k) ∧
      mailbox r.net nodeID = some left := by
  cases hq : node.InputChan with
  | nil =>
    refine ⟨[], [], ⟨[], none, n⟩, rfl, ?_, rfl, rfl, fun h => absurd rfl h,
      fun h => absurd rfl h, ?_, fun _ _ => rfl, ?_⟩
    · simp [recv, hnode, hq]
    · intro pre x h
      exact absurd h (by simp)
    · simp [mailbox, hnode, hq]
  | cons first queue =>
    obtain ⟨taken, left, h1, h2, h3, h4, h5⟩ := drain_spec max queue ([] ++ first)
    refine ⟨first :: taken, left,
      RecvResult.mk (drain max queue ([] ++ first)).1 none
        { n with nodes :=
            n.nodes.put nodeID { node with InputChan := (drain max queue ([] ++ first)).2 } },
      by rw [h1]; rfl, ?_, ?_, rfl, fun _ => by simp, ?_, ?_, ?_, ?_⟩
    · have hpanic : ¬ (max < 0 ∨ maxMessageCap < max) := by
        rintro (h0 | h0)
        · exact absurd h0 (not_lt.2 hmax)
        · exact absurd h0 (not_lt.2 hcap)
      simp only [recv, hnode, hq, hpanic, if_false]
    · show (drain max queue ([] ++ first)).1 = (first :: taken).flatten
      rw [h2, List.nil_append, List.flatten_cons]
    · intro hl
      exact h4 hl
    · intro pre x hpre hne
      cases pre with
      | nil => exact absurd rfl hne
      | cons p pre1 =>
        obtain ⟨rfl, ht⟩ := List.cons.inj hpre
        have := h5 pre1 x ht
        simpa only [List.nil_append, List.flatten_cons] using this
    · intro k hk
      simp [hk]
    · show mailbox _ nodeID = some left
      rw [← h3]
      simp [mailbox]

/-- C16 fails on the mailbox that holds a batch of two messages and a batch
of one message: `recv` with max = 1 returns the two messages of the first
batch, more than max, and removes that batch alone. -/
theorem recv_exceeds_max :
    mailbox netABtwo "B" =
      some [[userMsg "one" "A", userMsg "two" "A"], [userMsg "three" "A"]] ∧
    (recv netABtwo "B" 1 0).map (fun r => r.msgs) =
      some [userMsg "one" "A", userMsg "two" "A"] ∧
    (recv netABtwo "B" 1 0).map (fun r => r.msgs.length) = some 2 ∧
    (recv netABtwo "B" 1 0).map (fun r => r.err) = some none ∧
    (recv netABtwo "B" 1 0).map (fun r => mailbox r.net "B") =
      some (some [[userMsg "three" "A"]]) ∧
    (recv netABtwo "B" 1 1000).map (fun r => r.msgs.length) = some 2 := by
  decide

/-- Every node is left as it was by `send` or has gained the stamped batch. -/
theorem send_node_cases (n : NetAgent) (f : String) (tos : List String) (ms : List Message)
    (ρ : RangeOrder) (k : String) :
    (send n f tos ms ρ).net.nodes k = n.nodes k ∨
      ∃ node, n.nodes k = some node ∧
        (send n f tos ms ρ).net.nodes k = some (enqueue node (stamp f ms)) := by
  cases herr : (resolveTargets n f tos ρ).2 with
  | some e =>
    left
    rw [send_of_resolve_err n f tos ms ρ (resolveTargets n f tos ρ).1 e (by rw [← herr])]
  | none =>
    obtain ⟨done, rest, _, _, hdone, hother, _⟩ := send_spec n f tos ms ρ herr
    by_cases hid : k ∈ done
    · obtain ⟨node, h1, _, h2⟩ := hdone k hid
      exact Or.inr ⟨node, h1, h2⟩
    · exact Or.inl (hother k hid)

/-- C17 as stated fails on the directory with nodes A, B and the edge A → B:
`send("A", ["B"], [])` returns delivered = 1 without error and puts an empty
batch into the mailbox of B. -/
theorem send_empty_messages_counterexample :
    (send netAB "A" ["B"] [] RangeOrder.stored).err = none ∧
    (send netAB "A" ["B"] [] RangeOrder.stored).delivered = 1 ∧
    mailbox netAB "B" = some [] ∧
    mailbox (send netAB "A" ["B"] [] RangeOrder.stored).net "B" = some [[]] := by
  decide

/-- C17, amended: the send action called without messages and without content
returns the validation error "messages or content is required" and changes
nothing; every mailbox is left as it was by the send action or has gained one
batch that is not empty; and the node loop never hands an empty message list
to `send`. -/
theorem sendAction_validates (n : NetAgent) (nodeID : String) (input : SendInput)
    (ρ : RangeOrder) :
    (input.Messages = [] → input.Content = "" →
      sendAction n nodeID input ρ =
        ("", some (Errorf "messages or content is required" []), n)) ∧
    (∀ k, mailbox (sendAction n nodeID input ρ).2.2 k = mailbox n k ∨
      ∃ q batch, batch ≠ [] ∧ mailbox n k = some q ∧
        mailbox (sendAction n nodeID input ρ).2.2 k = some (q ++ [batch])) ∧
    (∀ reply outMessages, loopOutMessages nodeID reply outMessages ≠ []) := by
  refine ⟨?_, ?_, ?_⟩
  · intro hm hc
    simp [sendAction, actionMessages, hm, hc]
  · intro k
    unfold sendAction
    simp only
    by_cases hlen : (actionMessages input).length = 0
    · rw [if_pos hlen]
      exact Or.inl rfl
    · rw [if_neg hlen]
      have hnet : ∀ r : SendResult,
          (match r.err with
            | some e => (("", some e, r.net) : String × Option Error × NetAgent)
            | none => ("delivered to " ++ toString r.delivered ++ " node(s)", none, r.net)).2.2 =
            r.net := by
        intro r
        cases r.err <;> rfl
      rw [hnet]
      rcases send_node_cases n nodeID (actionTargets input) (actionMessages input) ρ k with
        h | ⟨node, h1, h2⟩
      · left
        simp only [mailbox, h]
      · right
        refine ⟨node.InputChan, stamp nodeID (actionMessages input), ?_, by simp [mailbox, h1],
          by simp only [mailbox, h2, enqueue, Option.map_some']⟩
        intro h0
        apply hlen
        have := congrArg List.length h0
        simpa only [stamp, List.length_map, List.length_nil] using this
  · intro reply out
    unfold loopOutMessages
    split
    · simp
    · rename_i hlen
      intro h0
      apply hlen
      have := congrArg List.length h0
      simpa using this

/-- C17, amended, on the directory with nodes A, B and the edge A → B: the
send action without messages and content fails and changes nothing, with a
content it delivers one message, and the node loop wraps the reply when the
policy returned no message. -/
theorem sendAction_validates_witness :
    sendAction netAB "A" ⟨"B", [], [], ""⟩ RangeOrder.stored =
      ("", some (Errorf "messages or content is required" []), netAB) ∧
    (sendAction netAB "A" ⟨"B", [], [], "hi"⟩ RangeOrder.stored).1 = "delivered to 1 node(s)" ∧
    mailbox (sendAction netAB "A" ⟨"B", [], [], "hi"⟩ RangeOrder.stored).2.2 "B" =
      some [[userMsg "hi" "A"]] ∧
    loopOutMessages "A" "hello" [] = [userMsg "hello" "A"] :=
  ⟨(sendAction_validates netAB "A" ⟨"B", [], [], ""⟩ RangeOrder.stored).1 rfl rfl,
    by decide, by decide, by decide⟩

/-! ## Lemmas on slices that share memory -/

/-- After the stamping loop the caller's slice reads the stamped messages. -/
theorem Heap.read_stamp_self (m : Heap) (s : Slice) (f : String) :
    (m.stamp s f).read s = GoAgent.stamp f (m.read s) := by
  simp only [Heap.read, Heap.stamp, if_true]
  by_cases hoff : s.off ≤ (m s.arr).length
  · have hlen : ((m s.arr).take s.off).length = s.off := by
      rw [List.length_take]; omega
    rw [List.append_assoc, List.drop_append_eq_append_drop, hlen, Nat.sub_self, List.drop_zero,
      List.drop_eq_nil_of_le (Nat.le_of_eq hlen), List.nil_append]
    by_cases hfit : s.len ≤ ((m s.arr).drop s.off).length
    · have hl2 : (GoAgent.stamp f (((m s.arr).drop s.off).take s.len)).length = s.len := by
        simp only [GoAgent.stamp, List.length_map, List.length_take]
        omega
      rw [List.take_append_eq_append_take, hl2, Nat.sub_self, List.take_zero, List.append_nil,
        List.take_of_length_le (Nat.le_of_eq hl2)]
    · have hrest : (m s.arr).drop (s.off + s.len) = [] := by
        apply List.drop_eq_nil_of_le
        rw [List.length_drop] at hfit
        omega
      rw [hrest, List.append_nil]
      apply List.take_of_length_le
      simp only [GoAgent.stamp, List.length_map, List.length_take]
      omega
  · have h1 : (m s.arr).drop s.off = [] := List.drop_eq_nil_of_le (by omega)
    have h2 : (m s.arr).drop (s.off + s.len) = [] := List.drop_eq_nil_of_le (by omega)
    have h3 : (m s.arr).take s.off = m s.arr := List.take_of_length_le (by omega)
    rw [h1, h2, h3]
    simp [GoAgent.stamp, h1]

/-- The stamping loop leaves every other array as it was. -/
theorem Heap.stamp_other (m : Heap) (s : Slice) (f : String) (a : Nat) (h : a ≠ s.arr) :
    m.stamp s f a = m a := by
  simp [Heap.stamp, h]

/-- A slice of another array reads the same messages after the stamping loop. -/
theorem Heap.read_stamp_other (m : Heap) (s t : Slice) (f : String) (h : t.arr ≠ s.arr) :
    (m.stamp s f).read t = m.read t := by
  simp only [Heap.read, Heap.stamp_other m s f t.arr h]

theorem HeapNet.view_nodes_none (h : HeapNet) (id : String) :
    h.view.nodes id = none ↔ h.nodes id = none := by
  simp [HeapNet.view]

/-- What the delivery loop does on channels of slice headers, for
duplicate-free registered targets: it queues the header on a prefix `done` of
the targets, once each, counts them, leaves the memory as it is, and stops
without error at the end of the list or with the channel-full error at the
first target whose mailbox is at capacity. -/
theorem deliverShared_spec (batch : Slice) (ts : List String) (h : HeapNet) (d : Nat)
    (hnd : ts.Nodup) (hreg : ∀ id ∈ ts, h.nodes id ≠ none) :
    ∃ done rest, ts = done ++ rest ∧
      (deliverShared batch ts h d).1 = d + done.length ∧
      (∀ id ∈ done, ∃ node, h.nodes id = some node ∧ node.InputChan.length < chanCap ∧
        (deliverShared batch ts h d).2.2.nodes id = some (enqueueShared node batch)) ∧
      (∀ id, id ∉ done → (deliverShared batch ts h d).2.2.nodes id = h.nodes id) ∧
      (deliverShared batch ts h d).2.2.inEdges = h.inEdges ∧
      (deliverShared batch ts h d).2.2.outEdges = h.outEdges ∧
      (deliverShared batch ts h d).2.2.router = h.router ∧
      (deliverShared batch ts h d).2.2.started = h.started ∧
      (deliverShared batch ts h d).2.2.heap = h.heap ∧
      (rest = [] → (deliverShared batch ts h d).2.1 = none) ∧
      (∀ id rest1, rest = id :: rest1 → ∃ node, h.nodes id = some node ∧
        ¬ node.InputChan.length < chanCap ∧
        (deliverShared batch ts h d).2.1 =
          some (Errorf "input channel full for node %q" [node.ID])) := by
  induction ts generalizing h d with
  | nil =>
    refine ⟨[], [], rfl, ?_⟩
    simp [deliverShared]
  | cons id ts ih =>
    have hid : id ∉ ts := (List.nodup_cons.1 hnd).1
    have hts : ts.Nodup := (List.nodup_cons.1 hnd).2
    cases hnode : h.nodes id with
    | none => exact absurd hnode (hreg id (List.mem_cons_self _ _))
    | some node =>
      by_cases hroom : node.InputChan.length < chanCap
      · have hreg1 : ∀ x ∈ ts,
            ({ h with nodes := h.nodes.put id (enqueueShared node batch) } : HeapNet).nodes x ≠
              none := by
          intro x hx
          have hxid : x ≠ id := fun h0 => hid (h0 ▸ hx)
          simp only [ne_eq, hxid, not_false_eq_true, GoMap.put_other]
          exact hreg x (List.mem_cons_of_mem _ hx)
        obtain ⟨done, rest, hsplit, hcount, hdone, hother, hin, hout, hr, hs, hheap, hnil,
            hcons⟩ :=
          ih { h with nodes := h.nodes.put id (enqueueShared node batch) } (d + 1) hts hreg1
        have hiddone : id ∉ done := fun h0 => hid (hsplit ▸ List.mem_append_left _ h0)
        refine ⟨id :: done, rest, by rw [hsplit]; rfl, ?_, ?_, ?_, ?_, ?_, ?_, ?_, ?_, ?_, ?_⟩
        · simp only [deliverShared, hnode, hroom, if_true, hcount, List.length_cons]
          omega
        · intro x hx
          rcases List.mem_cons.1 hx with rfl | hx
          · refine ⟨node, hnode, hroom, ?_⟩
            simp only [deliverShared, hnode, hroom, if_true]
            rw [hother x hiddone]
            simp
          · obtain ⟨nd, h1, h2, h3⟩ := hdone x hx
            have hxid : x ≠ id := fun h0 => hiddone (h0 ▸ hx)
            simp only [ne_eq, hxid, not_false_eq_true, GoMap.put_other] at h1
            exact ⟨nd, h1, h2, by simpa only [deliverShared, hnode, hroom, if_true] using h3⟩
        · intro x hx
          have hxid : x ≠ id := fun h0 => hx (h0 ▸ List.mem_cons_self _ _)
          have hxd : x ∉ done := fun h0 => hx (List.mem_cons_of_mem _ h0)
          simp only [deliverShared, hnode, hroom, if_true]
          rw [hother x hxd]
          simp [hxid]
        · simpa only [deliverShared, hnode, hroom, if_true] using hin
        · simpa only [deliverShared, hnode, hroom, if_true] using hout
        · simpa only [deliverShared, hnode, hroom, if_true] using hr
        · simpa only [deliverShared, hnode, hroom, if_true] using hs
        · simpa only [deliverShared, hnode, hroom, if_true] using hheap
        · intro h0
          simpa only [deliverShared, hnode, hroom, if_true] using hnil h0
        · intro x rest1 h0
          obtain ⟨nd, h1, h2, h3⟩ := hcons x rest1 h0
          have hxts : x ∈ ts := hsplit ▸ List.mem_append_right _ (h0 ▸ List.mem_cons_self _ _)
          have hxid : x ≠ id := fun h4 => hid (h4 ▸ hxts)
          simp only [ne_eq, hxid, not_false_eq_true, GoMap.put_other] at h1
          exact ⟨nd, h1, h2, by simpa only [deliverShared, hnode, hroom, if_true] using h3⟩
      · refine ⟨[], id :: ts, rfl, ?_, ?_, ?_, ?_, ?_, ?_, ?_, ?_, ?_, ?_⟩
        · simp [deliverShared, hnode, hroom]
        · intro x hx; simp at hx
        · intro x _; simp [deliverShared, hnode, hroom]
        · simp [deliverShared, hnode, hroom]
        · simp [deliverShared, hnode, hroom]
        · simp [deliverShared, hnode, hroom]
        · simp [deliverShared, hnode, hroom]
        · simp [deliverShared, hnode, hroom]
        · intro h0; simp at h0
        · intro x rest1 h0
          obtain ⟨rfl, -⟩ := List.cons.inj h0
          exact ⟨node, hnode, hroom, by simp [deliverShared, hnode, hroom]⟩

theorem sendShared_of_resolve_err (h : HeapNet) (f : String) (tos : List String) (s : Slice)
    (ρ : RangeOrder) (ts : List String) (e : Error)
    (hres : resolveTargets h.view f tos ρ = (ts, some e)) :
    sendShared h f tos s ρ = ⟨0, some e, h⟩ := by
  simp [sendShared, hres]

theorem sendShared_of_resolve_ok (h : HeapNet) (f : String) (tos : List String) (s : Slice)
    (ρ : RangeOrder) (hres : (resolveTargets h.view f tos ρ).2 = none) :
    sendShared h f tos s ρ =
      ⟨(deliverShared s (resolveTargets h.view f tos ρ).1
          { h with heap := h.heap.stamp s f } 0).1,
        (deliverShared s (resolveTargets h.view f tos ρ).1
          { h with heap := h.heap.stamp s f } 0).2.1,
        (deliverShared s (resolveTargets h.view f tos ρ).1
          { h with heap := h.heap.stamp s f } 0).2.2⟩ := by
  unfold sendShared
  cases hr : resolveTargets h.view f tos ρ with
  | mk ts err =>
    rw [hr] at hres
    simp only at hres
    subst hres
    rfl

/-- What `send` does on slices that share memory once its targets are
resolved. -/
theorem sendShared_spec (h : HeapNet) (f : String) (tos : List String) (s : Slice)
    (ρ : RangeOrder) (hres : (resolveTargets h.view f tos ρ).2 = none) :
    ∃ done rest, (resolveTargets h.view f tos ρ).1 = done ++ rest ∧
      (sendShared h f tos s ρ).delivered = done.length ∧
      (∀ id ∈ done, ∃ node, h.nodes id = some node ∧ node.InputChan.length < chanCap ∧
        (sendShared h f tos s ρ).net.nodes id = some (enqueueShared node s)) ∧
      (∀ id, id ∉ done → (sendShared h f tos s ρ).net.nodes id = h.nodes id) ∧
      (sendShared h f tos s ρ).net.inEdges = h.inEdges ∧
      (sendShared h f tos s ρ).net.outEdges = h.outEdges ∧
      (sendShared h f tos s ρ).net.router = h.router ∧
      (sendShared h f tos s ρ).net.started = h.started ∧
      (sendShared h f tos s ρ).net.heap = h.heap.stamp s f ∧
      (rest = [] → (sendShared h f tos s ρ).err = none) ∧
      (∀ id rest1, rest = id :: rest1 → ∃ node, h.nodes id = some node ∧
        ¬ node.InputChan.length < chanCap ∧
        (sendShared h f tos s ρ).err =
          some (Errorf "input channel full for node %q" [node.ID])) := by
  obtain ⟨_, hnd, hmem, _⟩ := resolveTargets_ok h.view f tos ρ hres
  obtain ⟨done, rest, h1, h2, h3, h4, h5, h6, h7, h8, h9, h10, h11⟩ :=
    deliverShared_spec s (resolveTargets h.view f tos ρ).1
      { h with heap := h.heap.stamp s f } 0 hnd
      (fun id hid => by
        have := ((hmem id).1 hid).1
        rwa [ne_eq, HeapNet.view_nodes_none] at this)
  rw [sendShared_of_resolve_ok h f tos s ρ hres]
  exact ⟨done, rest, h1, by simpa using h2, h3, h4, h5, h6, h7, h8, h9, h10, h11⟩

theorem HeapNet.view_enqueue (h : HeapNet) (id : String) (node : RefNode) (s : Slice) :
    ({ h with nodes := h.nodes.put id (enqueueShared node s) } : HeapNet).view =
      { h.view with
        nodes := h.view.nodes.put id (enqueue (RefNode.view h.heap node) (h.heap.read s)) } := by
  simp only [HeapNet.view, NetAgent.mk.injEq, and_true]
  funext k
  by_cases hk : k = id
  · subst hk
    simp [RefNode.view, enqueueShared, enqueue]
  · simp [hk]

/-- The delivery loop on slice headers does, read through the memory, what
the delivery loop on message lists does. -/
theorem deliverShared_view (s : Slice) (ts : List String) (h : HeapNet) (d : Nat) :
    (deliverShared s ts h d).1 = (deliver (h.heap.read s) ts h.view d).1 ∧
    (deliverShared s ts h d).2.1 = (deliver (h.heap.read s) ts h.view d).2.1 ∧
    (deliverShared s ts h d).2.2.view = (deliver (h.heap.read s) ts h.view d).2.2 := by
  induction ts generalizing h d with
  | nil => simp [deliverShared, deliver]
  | cons id ts ih =>
    cases hnode : h.nodes id with
    | none =>
      have hv : h.view.nodes id = none := (HeapNet.view_nodes_none h id).2 hnode
      simp only [deliverShared, deliver, hnode, hv]
      exact ih h d
    | some node =>
      have hv : h.view.nodes id = some (RefNode.view h.heap node) := by
        simp [HeapNet.view, hnode]
      have hlen : (RefNode.view h.heap node).InputChan.length = node.InputChan.length := by
        simp [RefNode.view]
      by_cases hroom : node.InputChan.length < chanCap
      · have hroom2 : (RefNode.view h.heap node).InputChan.length < chanCap := by
          rw [hlen]; exact hroom
        have := ih { h with nodes := h.nodes.put id (enqueueShared node s) } (d + 1)
        rw [HeapNet.view_enqueue] at this
        simpa only [deliverShared, deliver, hnode, hv, hroom, hroom2, if_true] using this
      · have hroom2 : ¬ (RefNode.view h.heap node).InputChan.length < chanCap := by
          rw [hlen]; exact hroom
        simp [deliverShared, deliver, hnode, hv, hroom, hroom2, RefNode.view]

/-- The stamping loop does not change what the directory reads when no queued
slice shares the array of the stamped slice. -/
theorem HeapNet.view_stamp_fresh (h : HeapNet) (s : Slice) (f : String)
    (hfresh : ∀ id node, h.nodes id = some node →
      ∀ t ∈ node.InputChan ++ node.OutputChan, t.arr ≠ s.arr) :
    ({ h with heap := h.heap.stamp s f } : HeapNet).view = h.view := by
  simp only [HeapNet.view, NetAgent.mk.injEq, and_true]
  funext k
  cases hk : h.nodes k with
  | none => rfl
  | some node =>
    simp only [Option.map_some', Option.some.injEq, RefNode.view, AgentNode.mk.injEq, true_and]
    constructor
    · apply List.map_congr_left
      intro t ht
      exact Heap.read_stamp_other _ _ _ _ (hfresh k node hk t (List.mem_append_left _ ht))
    · apply List.map_congr_left
      intro t ht
      exact Heap.read_stamp_other _ _ _ _ (hfresh k node hk t (List.mem_append_right _ ht))

/-- Refinement: when the caller's slice shares its array with no queued
slice, `send` on slices that share memory returns what `send` on message lists
returns for the messages of the slice, leaves the directory that `send` on
message lists leaves, and the caller's slice then reads the messages that
`send` on message lists hands back. -/
theorem sendShared_refines (h : HeapNet) (f : String) (tos : List String) (s : Slice)
    (ρ : RangeOrder)
    (hfresh : ∀ id node, h.nodes id = some node →
      ∀ t ∈ node.InputChan ++ node.OutputChan, t.arr ≠ s.arr) :
    (sendShared h f tos s ρ).delivered = (send h.view f tos (h.heap.read s) ρ).delivered ∧
    (sendShared h f tos s ρ).err = (send h.view f tos (h.heap.read s) ρ).err ∧
    (sendShared h f tos s ρ).net.view = (send h.view f tos (h.heap.read s) ρ).net ∧
    (sendShared h f tos s ρ).net.heap.read s =
      (send h.view f tos (h.heap.read s) ρ).messages := by
  cases herr : (resolveTargets h.view f tos ρ).2 with
  | some e =>
    rw [sendShared_of_resolve_err h f tos s ρ (resolveTargets h.view f tos ρ).1 e
        (by rw [← herr]),
      send_of_resolve_err h.view f tos (h.heap.read s) ρ (resolveTargets h.view f tos ρ).1 e
        (by rw [← herr])]
    exact ⟨rfl, rfl, rfl, rfl⟩
  | none =>
    obtain ⟨_, _, _, _, _, _, _, _, _, _, hheap, _⟩ := sendShared_spec h f tos s ρ herr
    have hsim := deliverShared_view s (resolveTargets h.view f tos ρ).1
      { h with heap := h.heap.stamp s f } 0
    rw [HeapNet.view_stamp_fresh h s f hfresh] at hsim
    simp only [Heap.read_stamp_self] at hsim
    refine ⟨?_, ?_, ?_, ?_⟩
    · rw [sendShared_of_resolve_ok h f tos s ρ herr, send_of_resolve_ok h.view f tos _ ρ herr]
      exact hsim.1
    · rw [sendShared_of_resolve_ok h f tos s ρ herr, send_of_resolve_ok h.view f tos _ ρ herr]
      exact hsim.2.1
    · rw [sendShared_of_resolve_ok h f tos s ρ herr, send_of_resolve_ok h.view f tos _ ρ herr]
      exact hsim.2.2
    · rw [hheap, Heap.read_stamp_self, send_of_resolve_ok h.view f tos _ ρ herr]

/-- The queued slices of other arrays read the same batches after the
stamping loop. -/
theorem mailbox_stamp_fresh (m : Heap) (s : Slice) (f : String) (queue : List Slice)
    (hfresh : ∀ t ∈ queue, t.arr ≠ s.arr) :
    queue.map (m.stamp s f).read = queue.map m.read := by
  apply List.map_congr_left
  intro t ht
  exact Heap.read_stamp_other _ _ _ _ (hfresh t ht)

/-! ## Claims on the delivered count and on the capacity, on slices that share memory -/

/-- C10 as stated fails on the network of `TestCommunication` when the mailbox
of B holds the slice `s` from an earlier `send("A", ["B"], s)`: the call
`send("C", ["A"], s)` resolves the single target A and succeeds, and the
batch in the mailbox of B, which is not a target, changes its provenance from
A to C. -/
theorem send_other_mailbox_counterexample :
    resolveTargets sharedAfterA.view "C" ["A"] RangeOrder.stored = (["A"], none) ∧
    mailbox sharedAfterA.view "B" = some [[userMsg "hi" "A"]] ∧
    (sendShared sharedAfterA "C" ["A"] sliceHi RangeOrder.stored).err = none ∧
    (sendShared sharedAfterA "C" ["A"] sliceHi RangeOrder.stored).delivered = 1 ∧
    mailbox (sendShared sharedAfterA "C" ["A"] sliceHi RangeOrder.stored).net.view "B" =
      some [[userMsg "hi" "C"]] := by
  decide

/-- C10, amended: when the targets of a `send` call are resolved, the targets
are the registered ids of the resolved set, each once; the call queues the
caller's slice at the tail of the mailboxes of a prefix `done` of the targets,
once each, and the queue of every other node is as it was; the returned count
is the length of `done`, and the mailboxes whose queue changed are exactly
those of `done`; the caller's slice then reads the stamped messages, and a
slice of another array reads what it read before; when no queued slice shares
the array of the caller's slice, the mailboxes of `done` read their old batches
followed by the stamped batch and every other node reads as before; without
an error `done` is the whole target list, and with an error the call stopped
at a target whose mailbox is at capacity. -/
theorem sendShared_delivered_count (h : HeapNet) (f : String) (tos : List String) (s : Slice)
    (ρ : RangeOrder) (hres : (resolveTargets h.view f tos ρ).2 = none) :
    ∃ done rest, (resolveTargets h.view f tos ρ).1 = done ++ rest ∧ (done ++ rest).Nodup ∧
      (∀ id, id ∈ done ++ rest ↔
        h.nodes id ≠ none ∧
          (if tos = [] then hasOut h.view f id = true else id ∈ tos ∧ id ≠ "")) ∧
      (sendShared h f tos s ρ).delivered = done.length ∧
      (∀ id, id ∈ done ↔
        ((sendShared h f tos s ρ).net.nodes id).map (fun node => node.InputChan) ≠
          (h.nodes id).map (fun node => node.InputChan)) ∧
      (∀ id ∈ done, ∃ node, h.nodes id = some node ∧
        (sendShared h f tos s ρ).net.nodes id =
          some { node with InputChan := node.InputChan ++ [s] }) ∧
      (∀ id, id ∉ done → (sendShared h f tos s ρ).net.nodes id = h.nodes id) ∧
      (sendShared h f tos s ρ).net.heap.read s = stamp f (h.heap.read s) ∧
      (∀ t : Slice, t.arr ≠ s.arr →
        (sendShared h f tos s ρ).net.heap.read t = h.heap.read t) ∧
      ((∀ id node, h.nodes id = some node → ∀ t ∈ node.InputChan, t.arr ≠ s.arr) →
        (∀ id ∈ done, ∃ q, mailbox h.view id = some q ∧
          mailbox (sendShared h f tos s ρ).net.view id = some (q ++ [stamp f (h.heap.read s)])) ∧
        (∀ id, id ∉ done → mailbox (sendShared h f tos s ρ).net.view id = mailbox h.view id)) ∧
      ((sendShared h f tos s ρ).err = none →
        rest = [] ∧
        (sendShared h f tos s ρ).delivered = (resolveTargets h.view f tos ρ).1.length) ∧
      ((sendShared h f tos s ρ).err ≠ none →
        ∃ id rest1 node, rest = id :: rest1 ∧ h.nodes id = some node ∧
          chanCap ≤ node.InputChan.length ∧
          (sendShared h f tos s ρ).err =
            some (Errorf "input channel full for node %q" [node.ID])) := by
  obtain ⟨_, hnd, hmem, _⟩ := resolveTargets_ok h.view f tos ρ hres
  obtain ⟨done, rest, hsplit, hcount, hdone, hother, _, _, _, _, hheap, hnil, hcons⟩ :=
    sendShared_spec h f tos s ρ hres
  refine ⟨done, rest, hsplit, hsplit ▸ hnd, ?_, hcount, ?_, ?_, hother, ?_, ?_, ?_, ?_, ?_⟩
  · intro id
    rw [← hsplit, hmem id, ne_eq, ne_eq, HeapNet.view_nodes_none]
  · intro id
    constructor
    · intro hid
      obtain ⟨node, h1, _, h2⟩ := hdone id hid
      simp only [h1, h2, enqueueShared, Option.map_some', ne_eq, Option.some.injEq]
      intro heq
      have := congrArg List.length heq
      simp at this
    · intro hne
      by_contra hid
      exact hne (by rw [hother id hid])
  · intro id hid
    obtain ⟨node, h1, _, h2⟩ := hdone id hid
    exact ⟨node, h1, h2⟩
  · rw [hheap, Heap.read_stamp_self]
  · intro t ht
    rw [hheap, Heap.read_stamp_other _ _ _ _ ht]
  · intro hfresh
    constructor
    · intro id hid
      obtain ⟨node, h1, _, h2⟩ := hdone id hid
      refine ⟨node.InputChan.map h.heap.read, by simp [mailbox, HeapNet.view, h1, RefNode.view],
        ?_⟩
      have hq : node.InputChan.map (h.heap.stamp s f).read = node.InputChan.map h.heap.read :=
        mailbox_stamp_fresh _ _ _ _ (hfresh id node h1)
      simp [mailbox, HeapNet.view, h2, RefNode.view, enqueueShared, hheap, hq,
        Heap.read_stamp_self]
    · intro id hid
      simp only [mailbox, HeapNet.view, hother id hid, hheap]
      cases hk : h.nodes id with
      | none => rfl
      | some node =>
        simp only [Option.map_some', Option.some.injEq, RefNode.view]
        exact mailbox_stamp_fresh _ _ _ _ (hfresh id node hk)
  · intro herr
    have hrest : rest = [] := by
      cases rest with
      | nil => rfl
      | cons x rest1 =>
        obtain ⟨node, _, _, h3⟩ := hcons x rest1 rfl
        rw [herr] at h3
        exact absurd h3 (by simp)
    refine ⟨hrest, ?_⟩
    rw [hcount, hsplit, hrest, List.append_nil]
  · intro herr
    cases rest with
    | nil => exact absurd (hnil rfl) herr
    | cons x rest1 =>
      obtain ⟨node, h1, h2, h3⟩ := hcons x rest1 rfl
      exact ⟨x, rest1, node, rfl, h1, Nat.le_of_not_lt h2, h3⟩

/-- C10, amended, on the network of `TestCommunication` with empty mailboxes:
`send("A", ["B", "B"], s)` resolves the single target B, returns 1 and the
mailbox of B reads the one stamped batch. -/
theorem sendShared_delivered_count_witness :
    (resolveTargets (HeapNet.ofNet netTest heapHi).view "A" ["B", "B"] RangeOrder.stored).2 =
      none ∧
    (∃ done rest, (resolveTargets (HeapNet.ofNet netTest heapHi).view "A" ["B", "B"] RangeOrder.stored).1 = done ++ rest ∧ (done ++ rest).Nodup ∧
      (∀ id, id ∈ done ++ rest ↔
        (HeapNet.ofNet netTest heapHi).nodes id ≠ none ∧
          (if ["B", "B"] = [] then hasOut (HeapNet.ofNet netTest heapHi).view "A" id = true else id ∈ ["B", "B"] ∧ id ≠ "")) ∧
      (sendShared (HeapNet.ofNet netTest heapHi) "A" ["B", "B"] sliceHi RangeOrder.stored).delivered = done.length ∧
      (∀ id, id ∈ done ↔
        ((sendShared (HeapNet.ofNet netTest heapHi) "A" ["B", "B"] sliceHi RangeOrder.stored).net.nodes id).map (fun node => node.InputChan) ≠
          ((HeapNet.ofNet netTest heapHi).nodes id).map (fun node => node.InputChan)) ∧
      (∀ id ∈ done, ∃ node, (HeapNet.ofNet netTest heapHi).nodes id = some node ∧
        (sendShared (HeapNet.ofNet netTest heapHi) "A" ["B", "B"] sliceHi RangeOrder.stored).net.nodes id =
          some { node with InputChan := node.InputChan ++ [sliceHi] }) ∧
      (∀ id, id ∉ done → (sendShared (HeapNet.ofNet netTest heapHi) "A" ["B", "B"] sliceHi RangeOrder.stored).net.nodes id = (HeapNet.ofNet netTest heapHi).nodes id) ∧
      (sendShared (HeapNet.ofNet netTest heapHi) "A" ["B", "B"] sliceHi RangeOrder.stored).net.heap.read sliceHi = stamp "A" ((HeapNet.ofNet netTest heapHi).heap.read sliceHi) ∧
      (∀ t : Slice, t.arr ≠ sliceHi.arr →
        (sendShared (HeapNet.ofNet netTest heapHi) "A" ["B", "B"] sliceHi RangeOrder.stored).net.heap.read t = (HeapNet.ofNet netTest heapHi).heap.read t) ∧
      ((∀ id node, (HeapNet.ofNet netTest heapHi).nodes id = some node →
          ∀ t ∈ node.InputChan, t.arr ≠ sliceHi.arr) →
        (∀ id ∈ done, ∃ q, mailbox (HeapNet.ofNet netTest heapHi).view id = some q ∧
          mailbox (sendShared (HeapNet.ofNet netTest heapHi) "A" ["B", "B"] sliceHi RangeOrder.stored).net.view id = some (q ++ [stamp "A" ((HeapNet.ofNet netTest heapHi).heap.read sliceHi)])) ∧
        (∀ id, id ∉ done → mailbox (sendShared (HeapNet.ofNet netTest heapHi) "A" ["B", "B"] sliceHi RangeOrder.stored).net.view id =
          mailbox (HeapNet.ofNet netTest heapHi).view id)) ∧
      ((sendShared (HeapNet.ofNet netTest heapHi) "A" ["B", "B"] sliceHi RangeOrder.stored).err = none →
        rest = [] ∧
        (sendShared (HeapNet.ofNet netTest heapHi) "A" ["B", "B"] sliceHi RangeOrder.stored).delivered = (resolveTargets (HeapNet.ofNet netTest heapHi).view "A" ["B", "B"] RangeOrder.stored).1.length) ∧
      ((sendShared (HeapNet.ofNet netTest heapHi) "A" ["B", "B"] sliceHi RangeOrder.stored).err ≠ none →
        ∃ id rest1 node, rest = id :: rest1 ∧ (HeapNet.ofNet netTest heapHi).nodes id = some node ∧
          chanCap ≤ node.InputChan.length ∧
          (sendShared (HeapNet.ofNet netTest heapHi) "A" ["B", "B"] sliceHi RangeOrder.stored).err =
            some (Errorf "input channel full for node %q" [node.ID]))) ∧
    (sendShared (HeapNet.ofNet netTest heapHi) "A" ["B", "B"] sliceHi
      RangeOrder.stored).delivered = 1 ∧
    mailbox (sendShared (HeapNet.ofNet netTest heapHi) "A" ["B", "B"] sliceHi
      RangeOrder.stored).net.view "B" = some [[userMsg "hi" "A"]] :=
  ⟨by decide,
    sendShared_delivered_count (HeapNet.ofNet netTest heapHi) "A" ["B", "B"] sliceHi
      RangeOrder.stored (by decide),
    by decide, by decide⟩

/-- C12 as stated fails on the network of `TestCommunication` when the mailbox
of B is at capacity and holds ten times the slice `s`: the call
`send("C", ["B"], s)` returns the channel-full error and delivers nothing, and
the ten batches in the mailbox of B change their provenance from A to C. -/
theorem send_full_mailbox_counterexample :
    (sharedBfull.nodes "B").map (fun node => node.InputChan.length) = some chanCap ∧
    (mailbox sharedBfull.view "B").map
        (fun q => q.map (fun b => b.map (fun m => m.FromNodeID))) =
      some (List.replicate 10 ["A"]) ∧
    (sendShared sharedBfull "C" ["B"] sliceHi RangeOrder.stored).err =
      some (Errorf "input channel full for node %q" ["B"]) ∧
    (sendShared sharedBfull "C" ["B"] sliceHi RangeOrder.stored).delivered = 0 ∧
    (mailbox (sendShared sharedBfull "C" ["B"] sliceHi RangeOrder.stored).net.view "B").map
        (fun q => q.map (fun b => b.map (fun m => m.FromNodeID))) =
      some (List.replicate 10 ["C"]) := by
  decide

/-- C12, amended: the capacity of a mailbox is 10; a `send` call whose targets
are resolved returns without error exactly when no resolved target has its
mailbox at capacity at the start of the call; the queue of a node whose
mailbox is at capacity is left as it was by every `send` call, and when no
mailbox holds more than the capacity before a `send` call, none does after
it; a queued slice of another array than the caller's reads what it read
before, so when no queued slice shares the array of the caller's slice a node
whose mailbox is at capacity reads as before. -/
theorem sendShared_capacity (h : HeapNet) (f : String) (tos : List String) (s : Slice)
    (ρ : RangeOrder) :
    chanCap = 10 ∧
    ((resolveTargets h.view f tos ρ).2 = none →
      ((sendShared h f tos s ρ).err = none ↔
        ∀ id ∈ (resolveTargets h.view f tos ρ).1, ∀ node, h.nodes id = some node →
          node.InputChan.length < chanCap)) ∧
    (∀ id node, h.nodes id = some node → chanCap ≤ node.InputChan.length →
      (sendShared h f tos s ρ).net.nodes id = some node) ∧
    ((∀ id node, h.nodes id = some node → node.InputChan.length ≤ chanCap) →
      ∀ id node, (sendShared h f tos s ρ).net.nodes id = some node →
        node.InputChan.length ≤ chanCap) ∧
    (∀ t : Slice, t.arr ≠ s.arr →
      (sendShared h f tos s ρ).net.heap.read t = h.heap.read t) ∧
    ((∀ id node, h.nodes id = some node → ∀ t ∈ node.InputChan, t.arr ≠ s.arr) →
      ∀ id node, h.nodes id = some node → chanCap ≤ node.InputChan.length →
        mailbox (sendShared h f tos s ρ).net.view id = mailbox h.view id) := by
  have hfull : ∀ id node, h.nodes id = some node → chanCap ≤ node.InputChan.length →
      (sendShared h f tos s ρ).net.nodes id = some node := by
    intro id node hnode hfull
    cases herr : (resolveTargets h.view f tos ρ).2 with
    | some e =>
      rw [sendShared_of_resolve_err h f tos s ρ (resolveTargets h.view f tos ρ).1 e
        (by rw [← herr])]
      exact hnode
    | none =>
      obtain ⟨done, rest, _, _, hdone, hother, _⟩ := sendShared_spec h f tos s ρ herr
      by_cases hid : id ∈ done
      · obtain ⟨nd, h1, h2, _⟩ := hdone id hid
        rw [hnode] at h1
        cases h1
        omega
      · rw [hother id hid]; exact hnode
  have hheap : (sendShared h f tos s ρ).net.heap = h.heap ∨
      (sendShared h f tos s ρ).net.heap = h.heap.stamp s f := by
    cases herr : (resolveTargets h.view f tos ρ).2 with
    | some e =>
      left
      rw [sendShared_of_resolve_err h f tos s ρ (resolveTargets h.view f tos ρ).1 e
        (by rw [← herr])]
    | none =>
      obtain ⟨_, _, _, _, _, _, _, _, _, _, h9, _⟩ := sendShared_spec h f tos s ρ herr
      exact Or.inr h9
  refine ⟨rfl, ?_, hfull, ?_, ?_, ?_⟩
  · intro hok
    obtain ⟨done, rest, hsplit, _, hdone, _, _, _, _, _, _, hnil, hcons⟩ :=
      sendShared_spec h f tos s ρ hok
    constructor
    · intro herr id hid node hnode
      have hrest : rest = [] := by
        cases rest with
        | nil => rfl
        | cons x rest1 =>
          obtain ⟨_, _, _, h3⟩ := hcons x rest1 rfl
          rw [herr] at h3
          exact absurd h3 (by simp)
      rw [hsplit, hrest, List.append_nil] at hid
      obtain ⟨nd, h1, h2, _⟩ := hdone id hid
      rw [hnode] at h1
      cases h1
      exact h2
    · intro hall
      apply hnil
      cases rest with
      | nil => rfl
      | cons x rest1 =>
        obtain ⟨nd, h1, h2, _⟩ := hcons x rest1 rfl
        have hx : x ∈ (resolveTargets h.view f tos ρ).1 := by
          rw [hsplit]; exact List.mem_append_right _ (List.mem_cons_self _ _)
        exact absurd (hall x hx nd h1) h2
  · intro hcap id node hnode
    cases herr : (resolveTargets h.view f tos ρ).2 with
    | some e =>
      rw [sendShared_of_resolve_err h f tos s ρ (resolveTargets h.view f tos ρ).1 e
        (by rw [← herr])] at hnode
      exact hcap id node hnode
    | none =>
      obtain ⟨done, rest, _, _, hdone, hother, _⟩ := sendShared_spec h f tos s ρ herr
      by_cases hid : id ∈ done
      · obtain ⟨nd, _, h2, h3⟩ := hdone id hid
        rw [hnode] at h3
        cases h3
        simp only [enqueueShared, List.length_append, List.length_singleton]
        omega
      · rw [hother id hid] at hnode
        exact hcap id node hnode
  · intro t ht
    rcases hheap with h0 | h0
    · rw [h0]
    · rw [h0, Heap.read_stamp_other _ _ _ _ ht]
  · intro hfresh id node hnode hcap
    simp only [mailbox, HeapNet.view, hfull id node hnode hcap, hnode, Option.map_some',
      Option.some.injEq, RefNode.view]
    rcases hheap with h0 | h0
    · rw [h0]
    · rw [h0]
      exact mailbox_stamp_fresh _ _ _ _ (hfresh id node hnode)

/-- C12, amended, on the network of `TestCommunication` with the mailbox of B
at capacity: a `send` to B returns the channel-full error and the queue of B
keeps its ten slices; on empty mailboxes a `send` to B returns no error. -/
theorem sendShared_capacity_witness :
    (sharedBfull.nodes "B").map (fun node => node.InputChan.length) = some 10 ∧
    (sendShared sharedBfull "A" ["B"] sliceHi RangeOrder.stored).err =
      some (Errorf "input channel full for node %q" ["B"]) ∧
    (sendShared sharedBfull "A" ["B"] sliceHi RangeOrder.stored).net.nodes "B" =
      sharedBfull.nodes "B" ∧
    ((sendShared (HeapNet.ofNet netTest heapHi) "A" ["B"] sliceHi RangeOrder.stored).err =
        none ↔
      ∀ id ∈ (resolveTargets (HeapNet.ofNet netTest heapHi).view "A" ["B"]
          RangeOrder.stored).1,
        ∀ node, (HeapNet.ofNet netTest heapHi).nodes id = some node →
          node.InputChan.length < chanCap) :=
  ⟨by decide, by decide, by decide,
    (sendShared_capacity (HeapNet.ofNet netTest heapHi) "A" ["B"] sliceHi
      RangeOrder.stored).2.1 (by decide)⟩

end GoAgent
